import Mathlib

/-!
Verification development for the agentlib repository: a shallow embedding of
the core data model (messages, steps, execution state), the tool invocation
protocol, the middleware pipeline, the memory providers (Buffer,
SlidingWindow, Summarizing, Composite) and the five built-in reasoning
engines (ReAct, Chain-of-Thought, Planner, Reflect, Autonomous), together
with theorems settling the frozen claims about them.

Conventions of the embedding:
* TypeScript mutation of the per-run `ExecutionState` becomes explicit state
  passing: every operation takes and returns an `ExecState`.
* The model backend is abstracted by a *script*: a list of `ModelResponse`
  values consumed in order, one per `model.complete` call.  An exhausted
  script makes the call fail, mirroring a rejected promise.
* String-level operations whose internals no claim depends on (the
  `<thinking>` regex extraction, `extractText`, JSON parsing of plans and
  critiques) are abstracted into a `Parsers` record of functions the
  theorems quantify over; `JSON.stringify` of tool results is abstracted by
  tagging functions, since only the *presence* of the produced messages is
  ever claimed.
* Thrown errors become `Except String` results; since a TypeScript throw
  leaves the mutated state behind, operations return the final state
  *alongside* the `Except` outcome.
* Calls to `emitter.emit` and `middleware.run` made by the tool protocol are
  instrumented as event-name lists in the state, so that claims about which
  events fire can be stated.
* JavaScript truthiness tests on strings/numbers (`if (content)`,
  `if (policy.tokenBudget)`, `if (session.summary)`) are embedded as the
  corresponding emptiness / zero tests, noted at each site.
-/

namespace AgentLib

/-- Message roles of `ModelMessage` (src/packages/core/src/types/index.ts). -/
inductive Role
  | system
  | user
  | assistant
  | tool
deriving DecidableEq, Repr

/-- Tool call arguments.  In the source this is an arbitrary JSON object; the
only field any modelled code path reads is `result` (the Autonomous engine
reads `finishCall.arguments.result`), so the embedding keeps that field and
treats the rest as opaque via the `raw` tag. -/
structure ToolCallArgs where
  result : Option String := none
  raw : String := ""
deriving DecidableEq, Repr

/-- `ToolCall` record: `{id, name, arguments}`. -/
structure ToolCall where
  id : String
  name : String
  arguments : ToolCallArgs
deriving DecidableEq, Repr

/-- `ModelMessage`.  The optional `toolCalls` array is modelled as a plain
list: the source only ever tests it with `?.length`, under which `undefined`
and `[]` behave identically. -/
structure Message where
  role : Role
  content : String
  toolCallId : Option String := none
  toolCalls : List ToolCall := []
deriving DecidableEq, Repr

/-- `PlanTask.status` values. -/
inductive TaskStatus
  | pending
  | inProgress
  | done
  | failed
deriving DecidableEq, Repr

/-- `PlanTask` record of the Planner engine. -/
structure PlanTask where
  id : String
  description : String
  dependsOn : List String := []
  status : TaskStatus := .pending
  result : Option String := none
deriving DecidableEq, Repr

/-- The `ReasoningStep` tagged union (`thought | plan | tool_call |
tool_result | reflection | response`), each carrying its `engine` label. -/
inductive Step
  | thought (content : String) (engine : String)
  | plan (tasks : List PlanTask) (engine : String)
  | toolCallStep (toolName : String) (args : ToolCallArgs) (callId : String) (engine : String)
  | toolResult (toolName : String) (callId : String) (result : Option String)
      (error : Option String) (engine : String)
  | reflection (assessment : String) (needsRevision : Bool) (engine : String)
  | response (content : String) (engine : String)
deriving DecidableEq, Repr

/-- Is this a `response` step? -/
def Step.isResponse : Step → Bool
  | .response _ _ => true
  | _ => false

/-- Is this a `tool_call` step? -/
def Step.isToolCallStep : Step → Bool
  | .toolCallStep _ _ _ _ => true
  | _ => false

/-- Is this a `tool_result` step? -/
def Step.isToolResult : Step → Bool
  | .toolResult _ _ _ _ _ => true
  | _ => false

/-- Is this a `reflection` step? -/
def Step.isReflection : Step → Bool
  | .reflection _ _ _ => true
  | _ => false

/-- Is this a `thought` step? -/
def Step.isThought : Step → Bool
  | .thought _ _ => true
  | _ => false

/-- `TokenUsage` counters. -/
structure TokenUsage where
  promptTokens : Nat := 0
  completionTokens : Nat := 0
  totalTokens : Nat := 0
deriving DecidableEq, Repr

/-- `ExecutionState` of a run.  `steps`, `messages`, `toolCalls` and `usage`
mirror the source record (a tool call result is `Option String`, `none`
standing for the `null` recorded on failure).  `events` and `mwRuns` are
instrumentation: they record, in order, the event names passed to
`emitter.emit` and the scopes passed to `middleware.run` by the modelled
code, so that claims about event/middleware firing are statable. -/
structure ExecState where
  steps : List Step := []
  messages : List Message := []
  toolCalls : List (ToolCall × Option String) := []
  usage : TokenUsage := {}
  events : List String := []
  mwRuns : List String := []
deriving DecidableEq, Repr

/-- Fresh state for a run, seeded with initial messages (the agent runtime
creates an empty state and seeds `messages`; `steps` always starts empty). -/
def initState (msgs : List Message) : ExecState :=
  { messages := msgs }

/-- `pushStep` of the reasoning context: appends the step and emits a
`step:reasoning` event. -/
def pushStep (st : ExecState) (s : Step) : ExecState :=
  { st with
    steps := st.steps ++ [s]
    events := st.events ++ ["step:reasoning"] }

/-- `ToolSchema` (the `parameters` JSON schema is irrelevant to every claim
and omitted). -/
structure ToolSchema where
  name : String
  description : String := ""
deriving DecidableEq, Repr

/-- A registered tool: its schema plus its `execute` body, modelled as a pure
fallible function from arguments to a result value (a thrown error becomes
`Except.error` with the error message). -/
structure ToolDef where
  schema : ToolSchema
  execute : ToolCallArgs → Except String String

/-- The tool registry, a name-keyed map modelled as a list looked up by
schema name (`ToolRegistry.get`). -/
def registryGet (tools : List ToolDef) (name : String) : Option ToolDef :=
  tools.find? (fun t => t.schema.name == name)

/-- `ToolRegistry.isAllowed`: absence of an allow-list permits everything;
note that an *empty* allow-list blocks every tool, exactly as in the source
(`if (!allowedTools) return true` is false for `[]`, which is truthy). -/
def isAllowed (name : String) (allowedTools : Option (List String)) : Bool :=
  match allowedTools with
  | none => true
  | some l => l.contains name

/-- The policy fields consumed by the modelled code paths. -/
structure AgentPolicy where
  maxSteps : Option Nat := none
  tokenBudget : Option Nat := none
  allowedTools : Option (List String) := none

/-- Stands in for `JSON.stringify(result)` on the success path of
`callTool`; serialization details are irrelevant to every claim. -/
def jsonOfResult (r : String) : String := "result: " ++ r

/-- Stands in for `JSON.stringify(\x7b error \x7d)` on the failure path of
`callTool`. -/
def jsonOfError (e : String) : String := "error: " ++ e

/-- Stands in for `JSON.stringify(\x7b done: true \x7d)`, the content of the
synthetic finish tool-result message of the Autonomous engine. -/
def jsonDoneTrue : String := "done: true"

/-- `callTool` of the reasoning context (src/unnamed/part_004).  Looks up the
tool, checks the policy allow-list, emits `tool:before` and runs the
`tool:before` middleware, invokes the tool, and on either success or thrown
error appends one `tool_result` step, one `(call, result)` pair and one
`tool` message, then emits `tool:after` and runs the `tool:after`
middleware; a failure is re-raised after that bookkeeping.  The source
constructs a `ToolCallStep` value (`callStep`) that it never pushes; the
embedding mirrors that with an unused binding. -/
def callTool (tools : List ToolDef) (policy : AgentPolicy) (st : ExecState)
    (name : String) (args : ToolCallArgs) (callId : String) :
    ExecState × Except String String :=
  match registryGet tools name with
  | none => (st, .error ("[Reasoning] Unknown tool: " ++ name))
  | some tool =>
    if !(isAllowed name policy.allowedTools) then
      (st, .error ("[Reasoning] Tool not allowed by policy: " ++ name))
    else
      let _callStep : Step := .toolCallStep name args callId "runtime"
      let st1 := { st with
        events := st.events ++ ["tool:before"]
        mwRuns := st.mwRuns ++ ["tool:before"] }
      match tool.execute args with
      | .error err =>
        let st2 := { st1 with
          steps := st1.steps ++ [.toolResult name callId none (some err) "runtime"]
          toolCalls := st1.toolCalls ++ [(⟨callId, name, args⟩, none)]
          messages := st1.messages ++
            [{ role := .tool, content := jsonOfError err, toolCallId := some callId }]
          events := st1.events ++ ["tool:after"]
          mwRuns := st1.mwRuns ++ ["tool:after"] }
        (st2, .error err)
      | .ok r =>
        let st2 := { st1 with
          steps := st1.steps ++ [.toolResult name callId (some r) none "runtime"]
          toolCalls := st1.toolCalls ++ [(⟨callId, name, args⟩, some r)]
          messages := st1.messages ++
            [{ role := .tool, content := jsonOfResult r, toolCallId := some callId }]
          events := st1.events ++ ["tool:after"]
          mwRuns := st1.mwRuns ++ ["tool:after"] }
        (st2, .ok r)

-- ── Token estimation (src/unnamed/part_005, memory/tokens.ts) ──

/-- `estimateTokens`: `Math.ceil(text.length / 4)`. -/
def estimateTokens (text : String) : Nat :=
  (text.length + 3) / 4

/-- `estimateMessagesTokens`: sum of per-message estimates plus a
4-token-per-message overhead. -/
def estimateMessagesTokens (messages : List Message) : Nat :=
  (messages.map (fun m => estimateTokens m.content + 4)).sum

/-- The newest-to-oldest inclusion walk of `trimToTokenBudget`.  The input
list is the non-system messages *reversed* (newest first); the result is in
original order.  `tokens` is the running total; a message that does not fit
stops the walk. -/
def takeNewest (maxTokens : Nat) : List Message → Nat → List Message
  | [], _ => []
  | m :: tl, tokens =>
    let t := estimateTokens m.content + 4
    if maxTokens < tokens + t then []
    else takeNewest maxTokens tl (tokens + t) ++ [m]

/-- `trimToTokenBudget`: keeps all system messages in front, then walks the
remaining messages from newest to oldest, including those that fit within
`maxTokens` (the budget is seeded with the system messages' estimate). -/
def trimToTokenBudget (messages : List Message) (maxTokens : Nat) : List Message :=
  let system := messages.filter (fun m => m.role == .system)
  let rest := messages.filter (fun m => !(m.role == .system))
  system ++ takeNewest maxTokens rest.reverse (estimateMessagesTokens system)

-- ── SlidingWindowMemory (src/packages/memory/src/sliding-window.ts) ──

/-- JavaScript `arr.slice(-n)`: the last `min n (length)` elements, except
that `slice(-0)` is `slice(0)` and returns the whole array. -/
def sliceNeg (l : List α) (n : Nat) : List α :=
  if n = 0 then l else l.drop (l.length - n)

/-- `groupIntoTurns`: a turn ends at an assistant message with no pending
tool calls; trailing messages are flushed as one final turn.  A turn is its
message list. -/
def groupIntoTurns (messages : List Message) : List (List Message) :=
  let step := fun (acc : List (List Message) × List Message) (msg : Message) =>
    let current := acc.2 ++ [msg]
    if msg.role == .assistant && msg.toolCalls.isEmpty then
      (acc.1 ++ [current], [])
    else
      (acc.1, current)
  let out := messages.foldl step ([], [])
  if out.2.isEmpty then out.1 else out.1 ++ [out.2]

/-- Configuration of `SlidingWindowMemory`. -/
structure SlidingWindowConfig where
  maxTokens : Nat := 4000
  maxTurns : Nat := 50
deriving DecidableEq, Repr

/-- Per-provider session store: sessionId-keyed association list (the
`Map`); later writes overwrite via functional update. -/
def alGet (l : List (String × β)) (k : String) : Option β :=
  (l.find? (fun p => p.1 == k)).map (·.2)

/-- `Map.set`. -/
def alSet (l : List (String × β)) (k : String) (v : β) : List (String × β) :=
  if (l.find? (fun p => p.1 == k)).isSome then
    l.map (fun p => if p.1 == k then (k, v) else p)
  else
    l ++ [(k, v)]

/-- `Map.delete`. -/
def alDel (l : List (String × β)) (k : String) : List (String × β) :=
  l.filter (fun p => !(p.1 == k))

/-- Session store of `SlidingWindowMemory`: turns per session. -/
def SWStore := List (String × List (List Message))

/-- `SlidingWindowMemory.read`: flatten the stored turns and trim the flat
message list to the token budget (per *message*, via `trimToTokenBudget`). -/
def swRead (cfg : SlidingWindowConfig) (store : SWStore) (sessionId : Option String) :
    List Message :=
  let sid := sessionId.getD "default"
  let turns := (alGet store sid).getD []
  let messages := turns.flatten
  trimToTokenBudget messages cfg.maxTokens

/-- `SlidingWindowMemory.write`: group the non-system incoming messages into
turns, append to the existing turns and keep the most recent `maxTurns`
(`slice(-maxTurns)`). -/
def swWrite (cfg : SlidingWindowConfig) (store : SWStore) (messages : List Message)
    (sessionId : Option String) : SWStore :=
  let sid := sessionId.getD "default"
  let existing := (alGet store sid).getD []
  let nonSystem := messages.filter (fun m => !(m.role == .system))
  let newTurns := groupIntoTurns nonSystem
  let merged := sliceNeg (existing ++ newTurns) cfg.maxTurns
  alSet store sid merged

/-- `SlidingWindowMemory.clear(sessionId)` for a present session id. -/
def swClear (store : SWStore) (sessionId : String) : SWStore :=
  alDel store sessionId

-- ── BufferMemory (src/unnamed/part_003, memory/buffer.ts) ──

/-- Configuration of `BufferMemory`. -/
structure BufferConfig where
  maxMessages : Nat := 20
  maxTokens : Option Nat := none
deriving DecidableEq, Repr

/-- Session store of `BufferMemory`: messages per session. -/
def BufStore := List (String × List Message)

/-- `BufferMemory.read`: look up the session and, when a token budget is
configured (`if (this.maxTokens)` — zero is falsy), trim to it. -/
def bufRead (cfg : BufferConfig) (store : BufStore) (sessionId : Option String) :
    List Message :=
  let sid := sessionId.getD "default"
  let messages := (alGet store sid).getD []
  match cfg.maxTokens with
  | some t => if 0 < t then trimToTokenBudget messages t else messages
  | none => messages

/-- `BufferMemory.write`: drop system messages, keep the newest
`maxMessages` (`slice(-maxMessages)`) and replace the session store. -/
def bufWrite (cfg : BufferConfig) (store : BufStore) (messages : List Message)
    (sessionId : Option String) : BufStore :=
  let sid := sessionId.getD "default"
  let toStore := messages.filter (fun m => !(m.role == .system))
  let trimmed :=
    if cfg.maxMessages < toStore.length then sliceNeg toStore cfg.maxMessages else toStore
  alSet store sid trimmed

/-- `BufferMemory.clear(sessionId)` for a present session id. -/
def bufClear (store : BufStore) (sessionId : String) : BufStore :=
  alDel store sessionId

-- ── SummarizingMemory (src/packages/memory/src/summarizing.ts) ──

/-- Configuration of `SummarizingMemory` (the model provider is passed
separately as a summarizer function). -/
structure SummarizingConfig where
  activeWindowTokens : Nat := 3000
  summaryMaxTokens : Nat := 600
  summaryPrompt : String :=
    "You are a memory compression assistant.\nSummarize the following conversation concisely, preserving key facts, decisions, and context.\nOutput only the summary - no preamble or commentary."
deriving DecidableEq, Repr

/-- Per-session data of `SummarizingMemory`: the rolling summary (if any)
plus the active message window (timestamps and ids are omitted: no claim
touches them). -/
structure SumSession where
  summary : Option String := none
  activeMessages : List Message := []
deriving DecidableEq, Repr

/-- Session store of `SummarizingMemory`. -/
def SumStore := List (String × SumSession)

/-- Uppercased role name used in the compression prompt
(`m.role.toUpperCase()`). -/
def roleUpper : Role → String
  | .system => "SYSTEM"
  | .user => "USER"
  | .assistant => "ASSISTANT"
  | .tool => "TOOL"

/-- Lowercase role name, used for the composite merge fingerprint. -/
def roleStr : Role → String
  | .system => "system"
  | .user => "user"
  | .assistant => "assistant"
  | .tool => "tool"

/-- The two-message prompt `_compress` sends to the summarizer model: the
summary prompt, then the prior summary (when present and non-empty — JS
truthiness) followed by the head messages rendered as `ROLE: content`
lines. -/
def compressPrompt (cfg : SummarizingConfig) (prior : Option String)
    (toCompress : List Message) : List Message :=
  let existingSummary :=
    match prior with
    | some s =>
      if s == "" then ""
      else "Previous summary:\n" ++ s ++ "\n\nNew conversation to add:"
    | none => ""
  let compressInput :=
    String.intercalate "\n" (toCompress.map (fun m => roleUpper m.role ++ ": " ++ m.content))
  [{ role := .system, content := cfg.summaryPrompt },
   { role := .user, content := existingSummary ++ "\n" ++ compressInput }]

/-- `SummarizingMemory._compress`: split the active window at
`floor(n / 2)`, summarize the older half with one model call (the
`complete` function), clamp the summary to `summaryMaxTokens * 4`
characters, keep the newer half.  Also returns the prompt of the one model
call made, for observability. -/
def compressSession (cfg : SummarizingConfig) (complete : List Message → String)
    (session : SumSession) : SumSession × List (List Message) :=
  let messages := session.activeMessages
  let splitAt := messages.length / 2
  let toCompress := messages.take splitAt
  let toKeep := messages.drop splitAt
  let prompt := compressPrompt cfg session.summary toCompress
  let rawSummary := complete prompt
  let trimmedSummary := rawSummary.take (cfg.summaryMaxTokens * 4)
  ({ summary := some trimmedSummary, activeMessages := toKeep }, [prompt])

/-- `SummarizingMemory.write`: replace the active window with the non-system
incoming messages and compress when its token estimate exceeds
`activeWindowTokens`.  Returns the new store plus the list of summarizer
prompts issued (empty when no compression ran). -/
def sumWrite (cfg : SummarizingConfig) (complete : List Message → String)
    (store : SumStore) (messages : List Message) (sessionId : Option String) :
    SumStore × List (List Message) :=
  let sid := sessionId.getD "default"
  let existing := (alGet store sid).getD {}
  let nonSystem := messages.filter (fun m => !(m.role == .system))
  let updated := { existing with activeMessages := nonSystem }
  let tokens := estimateMessagesTokens updated.activeMessages
  if cfg.activeWindowTokens < tokens then
    let out := compressSession cfg complete updated
    (alSet store sid out.1, out.2)
  else
    (alSet store sid updated, [])

/-- `SummarizingMemory.read`: inject the summary as a synthetic system
message when it is present and non-empty (`if (session.summary)` — the empty
string is falsy), then the active window. -/
def sumRead (store : SumStore) (sessionId : Option String) : List Message :=
  let sid := sessionId.getD "default"
  match alGet store sid with
  | none => []
  | some session =>
    match session.summary with
    | some s =>
      if s == "" then session.activeMessages
      else
        { role := .system, content := "[Conversation summary so far]\n" ++ s }
          :: session.activeMessages
    | none => session.activeMessages

/-- `SummarizingMemory.clear(sessionId)` for a present session id. -/
def sumClear (store : SumStore) (sessionId : String) : SumStore :=
  alDel store sessionId

-- ── CompositeMemory (src/packages/memory/src/composite.ts) ──

/-- A child provider of `CompositeMemory`, closed over the three built-in
in-process providers (the summarizer model call is carried as a function). -/
inductive ChildMemory
  | buffer (cfg : BufferConfig) (store : BufStore)
  | sliding (cfg : SlidingWindowConfig) (store : SWStore)
  | summarizing (cfg : SummarizingConfig) (complete : List Message → String) (store : SumStore)

/-- `read` dispatched over a child provider. -/
def childRead (sessionId : Option String) : ChildMemory → List Message
  | .buffer cfg store => bufRead cfg store sessionId
  | .sliding cfg store => swRead cfg store sessionId
  | .summarizing _ _ store => sumRead store sessionId

/-- `clear(sessionId)` dispatched over a child provider. -/
def childClear (sessionId : String) : ChildMemory → ChildMemory
  | .buffer cfg store => .buffer cfg (bufClear store sessionId)
  | .sliding cfg store => .sliding cfg (swClear store sessionId)
  | .summarizing cfg c store => .summarizing cfg c (sumClear store sessionId)

/-- The composite read strategies. -/
inductive ReadStrategy
  | firstHit
  | merge
deriving DecidableEq, Repr

/-- The `(role, first-100-chars)` dedup fingerprint of the merge strategy. -/
def fingerprint (m : Message) : String :=
  roleStr m.role ++ ":" ++ m.content.take 100

/-- Merge dedup walk: keep the first message carrying each fingerprint. -/
def dedupGo (seen : List String) : List Message → List Message
  | [] => []
  | m :: rest =>
    if seen.contains (fingerprint m) then dedupGo seen rest
    else m :: dedupGo (seen ++ [fingerprint m]) rest

/-- First-hit read walk: the first provider with a non-empty result wins. -/
def firstHitGo (sessionId : Option String) : List ChildMemory → List Message
  | [] => []
  | p :: rest =>
    let messages := childRead sessionId p
    if messages.isEmpty then firstHitGo sessionId rest else messages

/-- `CompositeMemory.read`. -/
def compRead (strategy : ReadStrategy) (providers : List ChildMemory)
    (sessionId : Option String) : List Message :=
  match strategy with
  | .firstHit => firstHitGo sessionId providers
  | .merge => dedupGo [] ((providers.map (childRead sessionId)).flatten)

/-- `CompositeMemory.clear(sessionId)`: fan out to every child. -/
def compClear (providers : List ChildMemory) (sessionId : String) : List ChildMemory :=
  providers.map (childClear sessionId)

-- ── MiddlewarePipeline (src/packages/core/src/middleware/pipeline.ts) ──

/-- The six lifecycle scopes. -/
inductive MwScope
  | runBefore
  | runAfter
  | stepBefore
  | stepAfter
  | toolBefore
  | toolAfter
deriving DecidableEq, Repr

/-- A registered middleware, abstracted to what the pipeline mechanics can
observe: an identifying name, its declared scopes (`none` = unscoped, a
single scope in the source is normalized to a one-element list), and whether
its body invokes the provided continuation (`next`). -/
structure MwSpec where
  id : String
  scope : Option (List MwScope) := none
  callsNext : Bool := true

/-- Scope matching of `MiddlewarePipeline.run`: unscoped middleware matches
every scope. -/
def mwMatches (scope : MwScope) (m : MwSpec) : Bool :=
  match m.scope with
  | none => true
  | some ss => ss.contains scope

/-- The `dispatch` chain over the scope-filtered list: each middleware runs,
then the rest runs only if it invoked `next`.  The result is the trace of
middleware executed, in order. -/
def mwDispatch : List MwSpec → List String
  | [] => []
  | m :: rest => m.id :: (if m.callsNext then mwDispatch rest else [])

/-- `MiddlewarePipeline.run` for one scope invocation: filter to matching
middleware in registration order, then dispatch. -/
def pipelineRun (mws : List MwSpec) (scope : MwScope) : List String :=
  mwDispatch (mws.filter (mwMatches scope))

-- ── Reasoning utilities (src/unnamed/part_002, reasoning/utils.ts) ──

/-- A model backend response: the assistant message, the parsed tool calls
(`?.length` makes `undefined` and `[]` indistinguishable, so a plain list),
and the optional usage report. -/
structure ModelResponse where
  message : Message
  toolCalls : List ToolCall := []
  usage : Option TokenUsage := none
deriving DecidableEq, Repr

/-- Usage accumulation plus the token-budget check shared by `callModel` and
the Autonomous engine: when the response reports usage, add it to the run
counters and abort when a configured budget is reached
(`if (policy.tokenBudget && total >= budget)` — a zero budget is falsy). -/
def applyUsage (policy : AgentPolicy) (st : ExecState) (resp : ModelResponse) :
    ExecState × Except String Unit :=
  match resp.usage with
  | none => (st, .ok ())
  | some u =>
    let usage : TokenUsage :=
      { promptTokens := st.usage.promptTokens + u.promptTokens
        completionTokens := st.usage.completionTokens + u.completionTokens
        totalTokens := st.usage.totalTokens + u.totalTokens }
    let st1 := { st with usage := usage }
    match policy.tokenBudget with
    | some b =>
      if 0 < b && b ≤ usage.totalTokens then
        (st1, .error "[Reasoning] Token budget exceeded.")
      else (st1, .ok ())
    | none => (st1, .ok ())

/-- `callModel`: consume the next scripted model response, accumulate usage
and enforce the token budget.  The message list argument is what the source
sends to the backend; the scripted oracle abstracts the backend, so it is
unused here. -/
def callModel (policy : AgentPolicy) (st : ExecState) (script : List ModelResponse)
    (_messages : List Message) :
    ExecState × List ModelResponse × Except String ModelResponse :=
  match script with
  | [] => (st, [], .error "[Model] no response available")
  | resp :: rest =>
    match applyUsage policy st resp with
    | (st1, .error e) => (st1, rest, .error e)
    | (st1, .ok _) => (st1, rest, .ok resp)

/-- `executeToolCalls`: run every tool call of a response sequentially via
`callTool`; the first thrown error propagates. -/
def executeToolCalls (tools : List ToolDef) (policy : AgentPolicy) (st : ExecState) :
    List ToolCall → ExecState × Except String Unit
  | [] => (st, .ok ())
  | tc :: rest =>
    match callTool tools policy st tc.name tc.arguments tc.id with
    | (st1, .error e) => (st1, .error e)
    | (st1, .ok _) => executeToolCalls tools policy st1 rest

/-- The raw task shape `parseJSON` yields in the Planner plan phase. -/
structure PlanRaw where
  id : Option String := none
  description : String
  dependsOn : Option (List String) := none

/-- The critique shape of the Reflect engine. -/
structure Critique where
  score : Int
  issues : List String
  suggestion : String
  needsRevision : Bool

/-- String-level helpers of the engines whose internals no claim depends on,
abstracted as functions the theorems quantify over: `extractText` (strip
thinking tags), the CoT `<thinking>` block extraction (returning `none` when
the pattern does not match), and the two `JSON.parse`-based readers whose
parse failure (`none`) triggers the documented fallbacks. -/
structure Parsers where
  extractText : String → String
  extractThinking : String → Option String
  parsePlan : String → Option (List PlanRaw)
  parseCritique : String → Option Critique

/-- A concrete `Parsers` instance used by witnesses: text passes through
unchanged and nothing structured ever parses. -/
def plainParsers : Parsers :=
  { extractText := fun s => s
    extractThinking := fun _ => none
    parsePlan := fun _ => none
    parseCritique := fun _ => none }

/-- Stands in for `randomUUID()` in the Planner plan normalization; no claim
depends on generated ids. -/
def randomUUIDStr : String := "uuid"

-- ── ReactEngine (reasoning/engines/react.ts, src/unnamed part of reflect.ts blob) ──

/-- `ReactEngineConfig`. -/
structure ReactConfig where
  maxSteps : Nat := 10
deriving DecidableEq, Repr

/-- The ReAct loop (`while (steps < maxSteps)`), with the remaining
iteration count as fuel: call the model, append the assistant message, push
a `thought` step when the message has both content and tool calls, and
either push the `response` step and finish (no tool calls) or execute the
tool calls and continue. -/
def reactLoop (tools : List ToolDef) (policy : AgentPolicy) :
    Nat → List ModelResponse → ExecState → ExecState × Except String String
  | 0, _, st =>
    (st, .error "[ReactEngine] Max steps reached without a final answer.")
  | fuel + 1, script, st =>
    match callModel policy st script st.messages with
    | (st1, _, .error e) => (st1, .error e)
    | (st1, rest, .ok resp) =>
      let st2 := { st1 with messages := st1.messages ++ [resp.message] }
      let st3 :=
        if resp.message.content != "" && !resp.toolCalls.isEmpty then
          pushStep st2 (.thought resp.message.content "react")
        else st2
      if resp.toolCalls.isEmpty then
        (pushStep st3 (.response resp.message.content "react"), .ok resp.message.content)
      else
        match executeToolCalls tools policy st3 resp.toolCalls with
        | (st4, .error e) => (st4, .error e)
        | (st4, .ok _) => reactLoop tools policy fuel rest st4

/-- `ReactEngine.execute`. -/
def reactRun (cfg : ReactConfig) (tools : List ToolDef) (policy : AgentPolicy)
    (script : List ModelResponse) (st : ExecState) : ExecState × Except String String :=
  reactLoop tools policy cfg.maxSteps script st

-- ── ChainOfThoughtEngine (reasoning/engines/cot.ts) ──

/-- `ChainOfThoughtEngineConfig`. -/
structure CotConfig where
  useThinkingTags : Bool := true
  maxToolSteps : Nat := 5
  thinkingInstruction : String :=
    "Before answering, reason step by step inside <thinking> tags.\nWork through the problem carefully, considering all relevant information.\nThen provide your final answer outside the tags."
deriving DecidableEq, Repr

/-- `_injectInstruction`: augment the first system message with the thinking
instruction, or prepend one; identity when thinking tags are disabled.  The
result only feeds the (script-abstracted) model call. -/
def injectInstruction (cfg : CotConfig) (messages : List Message) : List Message :=
  if !cfg.useThinkingTags then messages
  else
    match messages.findIdx? (fun m => m.role == .system) with
    | some i =>
      match messages.get? i with
      | some sys =>
        messages.set i { sys with content := sys.content ++ "\n\n" ++ cfg.thinkingInstruction }
      | none => messages
    | none =>
      { role := .system, content := cfg.thinkingInstruction } :: messages

/-- The CoT tool loop (`while (toolSteps < maxToolSteps)`), entered with
`toolSteps = 1` after the first pass executed tools. -/
def cotToolLoop (P : Parsers) (tools : List ToolDef) (policy : AgentPolicy) :
    Nat → List ModelResponse → ExecState → ExecState × Except String String
  | 0, _, st => (st, .error "[ChainOfThoughtEngine] Max tool steps reached.")
  | fuel + 1, script, st =>
    match callModel policy st script st.messages with
    | (st1, _, .error e) => (st1, .error e)
    | (st1, rest, .ok next) =>
      let st2 := { st1 with messages := st1.messages ++ [next.message] }
      if next.toolCalls.isEmpty then
        let answer := P.extractText next.message.content
        (pushStep st2 (.response answer "cot"), .ok answer)
      else
        match executeToolCalls tools policy st2 next.toolCalls with
        | (st3, .error e) => (st3, .error e)
        | (st3, .ok _) => cotToolLoop P tools policy fuel rest st3

/-- `ChainOfThoughtEngine.execute`: one reasoning pass (with the instruction
injected into a local copy of the messages), a `thought` step when a
non-empty thinking block is extracted, then either the final answer or the
bounded tool loop. -/
def cotRun (cfg : CotConfig) (P : Parsers) (tools : List ToolDef) (policy : AgentPolicy)
    (script : List ModelResponse) (st : ExecState) : ExecState × Except String String :=
  match callModel policy st script (injectInstruction cfg st.messages) with
  | (st1, _, .error e) => (st1, .error e)
  | (st1, rest, .ok resp) =>
    let st2 := { st1 with messages := st1.messages ++ [resp.message] }
    let st3 :=
      if cfg.useThinkingTags then
        match P.extractThinking resp.message.content with
        | some thinking =>
          if thinking != "" then pushStep st2 (.thought thinking "cot") else st2
        | none => st2
      else st2
    if resp.toolCalls.isEmpty then
      let answer := P.extractText resp.message.content
      (pushStep st3 (.response answer "cot"), .ok answer)
    else
      match executeToolCalls tools policy st3 resp.toolCalls with
      | (st4, .error e) => (st4, .error e)
      | (st4, .ok _) => cotToolLoop P tools policy (cfg.maxToolSteps - 1) rest st4

-- ── PlannerEngine (reasoning/engines/planner.ts) ──

/-- `PlannerEngineConfig` (prompts omitted: they only feed the abstracted
model). -/
structure PlannerConfig where
  maxExecutionSteps : Nat := 20
  allowReplan : Bool := false
deriving DecidableEq, Repr

/-- `_makePlan`: one no-tools model call; a parsed JSON array is normalized
into pending `PlanTask`s (missing ids replaced by a generated one, missing
`dependsOn` by `[]`); on parse failure, a single synthetic task wraps the
raw user input. -/
def makePlan (P : Parsers) (policy : AgentPolicy) (input : String)
    (script : List ModelResponse) (st : ExecState) :
    ExecState × List ModelResponse × Except String (List PlanTask) :=
  match callModel policy st script [] with
  | (st1, rest, .error e) => (st1, rest, .error e)
  | (st1, rest, .ok resp) =>
    match P.parsePlan resp.message.content with
    | some rawTasks =>
      (st1, rest, .ok (rawTasks.map (fun t =>
        { id := t.id.getD randomUUIDStr
          description := t.description
          dependsOn := t.dependsOn.getD []
          status := .pending })))
    | none =>
      (st1, rest, .ok [{ id := "t1", description := input, dependsOn := [], status := .pending }])

/-- The per-task tool execution of `_executeTask`: run each tool call via
`callTool` and append its result to the task-local message buffer. -/
def execTaskTools (tools : List ToolDef) (policy : AgentPolicy) :
    List ToolCall → List Message → ExecState → ExecState × List Message × Except String Unit
  | [], taskMsgs, st => (st, taskMsgs, .ok ())
  | tc :: rest, taskMsgs, st =>
    match callTool tools policy st tc.name tc.arguments tc.id with
    | (st1, .error e) => (st1, taskMsgs, .error e)
    | (st1, .ok r) =>
      execTaskTools tools policy rest
        (taskMsgs ++ [{ role := .tool, content := jsonOfResult r, toolCallId := some tc.id }]) st1

/-- The bounded (`maxTaskSteps = 5`) sub-loop of `_executeTask`: repeated
model calls over the task-local message buffer, executing tool calls until a
tool-free answer arrives. -/
def executeTaskLoop (P : Parsers) (tools : List ToolDef) (policy : AgentPolicy)
    (taskId : String) :
    Nat → List Message → List ModelResponse → ExecState →
      ExecState × List ModelResponse × Except String String
  | 0, _, script, st =>
    (st, script, .error ("[PlannerEngine] Task \"" ++ taskId ++ "\" exceeded max steps."))
  | fuel + 1, taskMsgs, script, st =>
    match callModel policy st script taskMsgs with
    | (st1, rest, .error e) => (st1, rest, .error e)
    | (st1, rest, .ok resp) =>
      let taskMsgs1 := taskMsgs ++ [resp.message]
      if resp.toolCalls.isEmpty then
        (st1, rest, .ok (P.extractText resp.message.content))
      else
        match execTaskTools tools policy resp.toolCalls taskMsgs1 st1 with
        | (st2, _, .error e) => (st2, rest, .error e)
        | (st2, taskMsgs2, .ok _) =>
          executeTaskLoop P tools policy taskId fuel taskMsgs2 rest st2

/-- `_executeTask`: build the task-specific messages (abstracted away by the
script) and enter the 5-step sub-loop. -/
def executeTask (P : Parsers) (tools : List ToolDef) (policy : AgentPolicy)
    (task : PlanTask) (script : List ModelResponse) (st : ExecState) :
    ExecState × List ModelResponse × Except String String :=
  executeTaskLoop P tools policy task.id 5 [] script st

/-- The Phase-2 single pass over the plan: skip tasks with unmet
dependencies (never revisited), otherwise push an `Executing task` thought,
run the task, record its result and mark it `done`; a failure aborts unless
`allowReplan` swallows it (marking the task `failed`).  Returns the tasks
with their final statuses, the accumulated `(id, result)` pairs, and the
outcome. -/
def plannerTasksLoop (P : Parsers) (tools : List ToolDef) (policy : AgentPolicy)
    (cfg : PlannerConfig) :
    List PlanTask → Nat → List PlanTask → List (String × String) →
      List ModelResponse → ExecState →
      ExecState × List ModelResponse × List PlanTask × List (String × String) ×
        Except String Unit
  | [], _, processed, results, script, st => (st, script, processed, results, .ok ())
  | task :: restTasks, execSteps, processed, results, script, st =>
    if cfg.maxExecutionSteps ≤ execSteps then
      (st, script, processed, results, .error "[PlannerEngine] Max execution steps reached.")
    else
      let unmetDeps := task.dependsOn.filter (fun dep => !(results.map (·.1)).contains dep)
      if !unmetDeps.isEmpty then
        plannerTasksLoop P tools policy cfg restTasks execSteps (processed ++ [task])
          results script st
      else
        let st1 := pushStep st
          (.thought ("Executing task [" ++ task.id ++ "]: " ++ task.description) "planner")
        match executeTask P tools policy task script st1 with
        | (st2, rest, .ok r) =>
          plannerTasksLoop P tools policy cfg restTasks (execSteps + 1)
            (processed ++ [{ task with status := .done, result := some r }])
            (results ++ [(task.id, r)]) rest st2
        | (st2, rest, .error e) =>
          if !cfg.allowReplan then
            (st2, rest, processed ++ [{ task with status := .failed }], results,
              .error ("[PlannerEngine] Task \"" ++ task.id ++ "\" failed: " ++ e))
          else
            plannerTasksLoop P tools policy cfg restTasks execSteps
              (processed ++ [{ task with status := .failed }]) results rest st2

/-- `_synthesize`: one no-tools model call over the `done` tasks' results;
its content is the final answer. -/
def synthesize (policy : AgentPolicy) (script : List ModelResponse) (st : ExecState) :
    ExecState × List ModelResponse × Except String String :=
  match callModel policy st script [] with
  | (st1, rest, .error e) => (st1, rest, .error e)
  | (st1, rest, .ok resp) => (st1, rest, .ok resp.message.content)

/-- `PlannerEngine.execute`: plan, push the `plan` step, execute the single
pass, synthesize, push the `response` step.  (In the source the pushed plan
step aliases the task array later mutated in place; the embedding snapshots
the pending statuses, which no claim distinguishes.) -/
def plannerRun (cfg : PlannerConfig) (P : Parsers) (tools : List ToolDef)
    (policy : AgentPolicy) (input : String) (script : List ModelResponse)
    (st : ExecState) : ExecState × Except String String :=
  match makePlan P policy input script st with
  | (st1, _, .error e) => (st1, .error e)
  | (st1, rest, .ok plan) =>
    let st2 := pushStep st1 (.plan plan "planner")
    match plannerTasksLoop P tools policy cfg plan 0 [] [] rest st2 with
    | (st3, _, _, _, .error e) => (st3, .error e)
    | (st3, rest2, _, _, .ok _) =>
      match synthesize policy rest2 st3 with
      | (st4, _, .error e) => (st4, .error e)
      | (st4, _, .ok summary) =>
        (pushStep st4 (.response summary "planner"), .ok summary)

-- ── ReflectEngine (reasoning/engines/reflect.ts) ──

/-- `ReflectEngineConfig`. -/
structure ReflectConfig where
  maxReflections : Nat := 2
  acceptanceThreshold : Int := 8
  maxAnswerSteps : Nat := 5
deriving DecidableEq, Repr

/-- The fail-open fallback critique used when the critique JSON does not
parse: an automatic accept. -/
def fallbackCritique : Critique :=
  { score := 9, issues := [], suggestion := "", needsRevision := false }

/-- `_generateAnswer`: the bounded tool loop over the run's own message list
(the source passes `ctx.state.messages` by reference, so the assistant
messages it appends land in the state). -/
def generateAnswer (P : Parsers) (tools : List ToolDef) (policy : AgentPolicy) :
    Nat → List ModelResponse → ExecState →
      ExecState × List ModelResponse × Except String String
  | 0, script, st => (st, script, .error "[ReflectEngine] Max answer steps reached.")
  | fuel + 1, script, st =>
    match callModel policy st script st.messages with
    | (st1, rest, .error e) => (st1, rest, .error e)
    | (st1, rest, .ok resp) =>
      let st2 := { st1 with messages := st1.messages ++ [resp.message] }
      if resp.toolCalls.isEmpty then
        (st2, rest, .ok (P.extractText resp.message.content))
      else
        match executeToolCalls tools policy st2 resp.toolCalls with
        | (st3, .error e) => (st3, rest, .error e)
        | (st3, .ok _) => generateAnswer P tools policy fuel rest st3

/-- `_critique`: one no-tools model call; malformed critique JSON falls back
to the automatic accept. -/
def critique (P : Parsers) (policy : AgentPolicy) (script : List ModelResponse)
    (st : ExecState) : ExecState × List ModelResponse × Except String Critique :=
  match callModel policy st script [] with
  | (st1, rest, .error e) => (st1, rest, .error e)
  | (st1, rest, .ok resp) =>
    (st1, rest, .ok ((P.parseCritique resp.message.content).getD fallbackCritique))

/-- `_revise`: one model call (with tools); if it issues tool calls, the
assistant message is pushed to the state, the tools run, and one further
no-tools call produces the revised text. -/
def reviseAnswer (P : Parsers) (tools : List ToolDef) (policy : AgentPolicy)
    (script : List ModelResponse) (st : ExecState) :
    ExecState × List ModelResponse × Except String String :=
  match callModel policy st script [] with
  | (st1, rest, .error e) => (st1, rest, .error e)
  | (st1, rest, .ok resp) =>
    if !resp.toolCalls.isEmpty then
      let st2 := { st1 with messages := st1.messages ++ [resp.message] }
      match executeToolCalls tools policy st2 resp.toolCalls with
      | (st3, .error e) => (st3, rest, .error e)
      | (st3, .ok _) =>
        match callModel policy st3 rest st3.messages with
        | (st4, rest2, .error e) => (st4, rest2, .error e)
        | (st4, rest2, .ok finalResp) =>
          (st4, rest2, .ok (P.extractText finalResp.message.content))
    else
      (st1, rest, .ok (P.extractText resp.message.content))

/-- The critique/revise loop of `ReflectEngine.execute`
(`for (let i = 0; i < maxReflections; i++)`): critique, push the
`reflection` step, break on accept, otherwise push the revising `thought`
and revise. -/
def reflectLoop (P : Parsers) (tools : List ToolDef) (policy : AgentPolicy)
    (cfg : ReflectConfig) :
    Nat → Nat → String → List ModelResponse → ExecState →
      ExecState × List ModelResponse × Except String String
  | 0, _, answer, script, st => (st, script, .ok answer)
  | fuel + 1, i, answer, script, st =>
    match critique P policy script st with
    | (st1, rest, .error e) => (st1, rest, .error e)
    | (st1, rest, .ok crit) =>
      let assessment :=
        "Score: " ++ toString crit.score ++ "/10. Issues: " ++
          String.intercalate "; " crit.issues ++ ". " ++ crit.suggestion
      let st2 := pushStep st1 (.reflection assessment crit.needsRevision "reflect")
      if !crit.needsRevision || cfg.acceptanceThreshold ≤ crit.score then
        (st2, rest, .ok answer)
      else
        let st3 := pushStep st2
          (.thought ("Revising answer (attempt " ++ toString (i + 1) ++ "/" ++
            toString cfg.maxReflections ++ ")...") "reflect")
        match reviseAnswer P tools policy rest st3 with
        | (st4, rest2, .error e) => (st4, rest2, .error e)
        | (st4, rest2, .ok answer1) =>
          reflectLoop P tools policy cfg fuel (i + 1) answer1 rest2 st4

/-- `ReflectEngine.execute`: generate, push the `Initial answer generated.`
thought, run the reflection loop, push the `response` step. -/
def reflectRun (cfg : ReflectConfig) (P : Parsers) (tools : List ToolDef)
    (policy : AgentPolicy) (script : List ModelResponse) (st : ExecState) :
    ExecState × Except String String :=
  match generateAnswer P tools policy cfg.maxAnswerSteps script st with
  | (st1, _, .error e) => (st1, .error e)
  | (st1, rest, .ok answer) =>
    let st2 := pushStep st1 (.thought "Initial answer generated." "reflect")
    match reflectLoop P tools policy cfg cfg.maxReflections 0 answer rest st2 with
    | (st3, _, .error e) => (st3, .error e)
    | (st3, _, .ok finalAnswer) =>
      (pushStep st3 (.response finalAnswer "reflect"), .ok finalAnswer)

-- ── AutonomousEngine (reasoning/engines/autonomous.ts) ──

/-- `AutonomousEngineConfig`. -/
structure AutonomousConfig where
  maxSteps : Nat := 30
  finishToolName : String := "finish"
  finishToolDescription : String :=
    "Signal that you have completed the task. Call this with your final answer."
deriving DecidableEq, Repr

/-- The synthetic tool-result message appended for the finish call. -/
def finishToolMessage (callId : String) : Message :=
  { role := .tool, content := jsonDoneTrue, toolCallId := some callId }

/-- The Autonomous loop (`while (steps < maxSteps)`): call the model
(accumulating usage with the same budget check as `callModel`), append the
assistant message, push a `thought` when it has content, then: if the
injected finish tool was called, append the synthetic finish tool-result
message, push the `response` step and return the finish result argument
(falling back to the message content) — the other tool calls of that turn
are *not* executed; otherwise execute the non-finish tool calls and
continue; a turn with no tool calls at all ends the loop with its content as
the answer. -/
def autonomousLoop (P : Parsers) (tools : List ToolDef) (policy : AgentPolicy)
    (cfg : AutonomousConfig) :
    Nat → List ModelResponse → ExecState → ExecState × Except String String
  | 0, _, st =>
    (st, .error ("[AutonomousEngine] Max steps reached. The agent did not call \"" ++
      cfg.finishToolName ++ "\"."))
  | fuel + 1, script, st =>
    match script with
    | [] => (st, .error "[Model] no response available")
    | resp :: rest =>
      match applyUsage policy st resp with
      | (st1, .error _) => (st1, .error "[AutonomousEngine] Token budget exceeded.")
      | (st1, .ok _) =>
        let st2 := { st1 with messages := st1.messages ++ [resp.message] }
        let st3 :=
          if resp.message.content != "" then
            pushStep st2 (.thought resp.message.content "autonomous")
          else st2
        if !resp.toolCalls.isEmpty then
          match resp.toolCalls.find? (fun tc => tc.name == cfg.finishToolName) with
          | some finishCall =>
            let result := finishCall.arguments.result.getD resp.message.content
            let st4 := { st3 with
              messages := st3.messages ++ [finishToolMessage finishCall.id] }
            (pushStep st4 (.response result "autonomous"), .ok result)
          | none =>
            let regularCalls :=
              resp.toolCalls.filter (fun tc => !(tc.name == cfg.finishToolName))
            match executeToolCalls tools policy st3 regularCalls with
            | (st4, .error e) => (st4, .error e)
            | (st4, .ok _) => autonomousLoop P tools policy cfg fuel rest st4
        else
          let answer := P.extractText resp.message.content
          (pushStep st3 (.response answer "autonomous"), .ok answer)

/-- `AutonomousEngine.execute`: build the schema list with the injected
finish tool (it only feeds the abstracted model) and run the loop. -/
def autonomousRun (cfg : AutonomousConfig) (P : Parsers) (tools : List ToolDef)
    (policy : AgentPolicy) (script : List ModelResponse) (st : ExecState) :
    ExecState × Except String String :=
  let finishSchema : ToolSchema :=
    { name := cfg.finishToolName, description := cfg.finishToolDescription }
  let baseSchemas :=
    (tools.map (·.schema)).filter (fun t => isAllowed t.name policy.allowedTools)
  let _allSchemas := baseSchemas ++ [finishSchema]
  autonomousLoop P tools policy cfg cfg.maxSteps script st

-- ── Concrete inputs used by witnesses and counterexamples ──

/-- A tool-free assistant response. -/
def simpleResp : ModelResponse := { message := { role := .assistant, content := "hi" } }

/-- A tool that succeeds. -/
def okTool : ToolDef := { schema := { name := "adder" }, execute := fun _ => .ok "3" }

/-- A tool whose body throws. -/
def boomTool : ToolDef := { schema := { name := "boom" }, execute := fun _ => .error "boom" }

/-- Middleware list exercising scope filtering and short-circuiting. -/
def mwListW : List MwSpec :=
  [{ id := "a" },
   { id := "b", scope := some [.toolBefore], callsNext := false },
   { id := "c", scope := some [.toolBefore, .runAfter] },
   { id := "d" }]

/-- Middleware list in which every middleware invokes its continuation. -/
def mwListAllNext : List MwSpec :=
  [{ id := "a" }, { id := "c", scope := some [.runAfter] }, { id := "d" }]

/-- Spec-side property for claim C3 (written from the claim, not the code):
the trimmed read result is a concatenation of whole stored turns — i.e. it
equals the flattening of some suffix of the turn list, no turn being split
across the trim boundary. -/
def turnAlignedSuffix (msgs : List Message) (turns : List (List Message)) : Bool :=
  (List.range (turns.length + 1)).any (fun k => msgs == (turns.drop k).flatten)

/-- Sliding-window configuration for the C3 instance. -/
def swCfgW : SlidingWindowConfig := { maxTokens := 15, maxTurns := 50 }

/-- Two turns: an old turn whose user message is large (14 estimated tokens)
and whose assistant message is small (4), then a small recent turn (5+5). -/
def swCexMsgs : List Message :=
  [{ role := .user, content := "aaaaaaaaaaaaaaaaaaaaaaaaaaaaaaaaaaaaaaaa" },
   { role := .assistant, content := "" },
   { role := .user, content := "hi" },
   { role := .assistant, content := "ok" }]

/-- The stored session after writing the two turns. -/
def swCexStore : SWStore := swWrite swCfgW [] swCexMsgs (some "s")

/-- Summarizing configuration for the C5 instances: a tiny active-window
budget so that any write triggers compression (the summary clamp is also
small so that concrete evaluation stays shallow). -/
def sumCfgW : SummarizingConfig := { activeWindowTokens := 1, summaryMaxTokens := 2 }

/-- Two user messages written to the summarizing provider. -/
def sumCexMsgs : List Message :=
  [{ role := .user, content := "aaaa" }, { role := .user, content := "bbbb" }]

/-- A non-finish tool call issued in the same turn as the finish call. -/
def otherCallW : ToolCall := { id := "c1", name := "other", arguments := {} }

/-- The finish call carrying `result: "X"`. -/
def finishCallW : ToolCall := { id := "c2", name := "finish", arguments := { result := some "X" } }

/-- The registered tool backing `otherCallW`. -/
def otherToolW : ToolDef := { schema := { name := "other" }, execute := fun _ => .ok "res" }

/-- A single autonomous turn that calls both `other` and `finish`. -/
def c1Script : List ModelResponse :=
  [{ message := { role := .assistant, content := "" },
     toolCalls := [otherCallW, finishCallW] }]

-- ── Basic lemmas about the shared operations ──

/-- Applying usage touches only the usage counters. -/
theorem applyUsage_fst (policy : AgentPolicy) (st : ExecState) (resp : ModelResponse) :
    (applyUsage policy st resp).1 = { st with usage := (applyUsage policy st resp).1.usage } := by
  unfold applyUsage
  cases resp.usage with
  | none => rfl
  | some u =>
    cases policy.tokenBudget with
    | none => rfl
    | some b =>
      dsimp only
      split <;> rfl

/-- Consuming a scripted model response touches only the usage counters. -/
theorem callModel_fst (policy : AgentPolicy) (st : ExecState) (script : List ModelResponse)
    (msgs : List Message) :
    (callModel policy st script msgs).1 =
      { st with usage := (callModel policy st script msgs).1.usage } := by
  unfold callModel
  cases script with
  | nil => rfl
  | cons resp rest =>
    dsimp only
    have h := applyUsage_fst policy st resp
    rcases hA : applyUsage policy st resp with ⟨st1, exc⟩
    rw [hA] at h
    simp only at h
    cases exc <;> simpa using h

/-- Steps are untouched by `callModel`. -/
theorem callModel_steps (policy : AgentPolicy) (st : ExecState) (script : List ModelResponse)
    (msgs : List Message) :
    (callModel policy st script msgs).1.steps = st.steps := by
  rw [callModel_fst]

/-- Messages are untouched by `callModel`. -/
theorem callModel_messages (policy : AgentPolicy) (st : ExecState) (script : List ModelResponse)
    (msgs : List Message) :
    (callModel policy st script msgs).1.messages = st.messages := by
  rw [callModel_fst]

/-- A `tool_result` step is neither a `response` nor a `tool_call` step. -/
theorem toolResult_benign (s : Step) (h : s.isToolResult = true) :
    s.isResponse = false ∧ s.isToolCallStep = false := by
  cases s <;> simp_all [Step.isToolResult, Step.isResponse, Step.isToolCallStep]

/-- `callTool` appends only `tool_result` steps (one or none). -/
theorem callTool_delta (tools : List ToolDef) (policy : AgentPolicy) (st : ExecState)
    (name : String) (args : ToolCallArgs) (callId : String) :
    ∃ ds, (callTool tools policy st name args callId).1.steps = st.steps ++ ds ∧
      ∀ s ∈ ds, s.isToolResult = true := by
  unfold callTool
  cases h : registryGet tools name with
  | none => exact ⟨[], by simp⟩
  | some tool =>
    dsimp only
    split
    · exact ⟨[], by simp⟩
    · cases hexec : tool.execute args with
      | error e =>
        exact ⟨[.toolResult name callId none (some e) "runtime"], by simp [Step.isToolResult]⟩
      | ok r =>
        exact ⟨[.toolResult name callId (some r) none "runtime"], by simp [Step.isToolResult]⟩

/-- `executeToolCalls` appends only `tool_result` steps. -/
theorem executeToolCalls_delta (tools : List ToolDef) (policy : AgentPolicy) :
    ∀ (tcs : List ToolCall) (st : ExecState),
      ∃ ds, (executeToolCalls tools policy st tcs).1.steps = st.steps ++ ds ∧
        ∀ s ∈ ds, s.isToolResult = true := by
  intro tcs
  induction tcs with
  | nil => intro st; exact ⟨[], by simp [executeToolCalls]⟩
  | cons tc rest ih =>
    intro st
    unfold executeToolCalls
    obtain ⟨ds1, hds1, hall1⟩ := callTool_delta tools policy st tc.name tc.arguments tc.id
    rcases hC : callTool tools policy st tc.name tc.arguments tc.id with ⟨st1, exc⟩
    rw [hC] at hds1
    simp only at hds1
    cases exc with
    | error e => exact ⟨ds1, hds1, hall1⟩
    | ok r =>
      obtain ⟨ds2, hds2, hall2⟩ := ih st1
      refine ⟨ds1 ++ ds2, ?_, ?_⟩
      · simp only [hds2, hds1, List.append_assoc]
      · intro s hs
        rcases List.mem_append.mp hs with h | h
        · exact hall1 s h
        · exact hall2 s h

-- ── Association list lemmas ──

/-- Deleting a key makes lookup of that key fail. -/
theorem alGet_alDel (l : List (String × β)) (k : String) : alGet (alDel l k) k = none := by
  unfold alGet alDel
  induction l with
  | nil => rfl
  | cons p tl ih =>
    cases hb : (p.1 == k) with
    | true => simp only [List.filter_cons, hb]; exact ih
    | false =>
      simp only [List.filter_cons, hb, Bool.not_false, if_pos]
      rw [List.find?_cons_of_neg _ (by simp [hb])]
      exact ih

/-- Lookup after in-place overwrite of a present key. -/
theorem alGet_map_overwrite (l : List (String × β)) (k : String) (v : β)
    (h : (l.find? (fun p => p.1 == k)).isSome = true) :
    alGet (l.map (fun p => if p.1 == k then (k, v) else p)) k = some v := by
  induction l with
  | nil => simp [List.find?] at h
  | cons q tl ih =>
    cases hq : (q.1 == k) with
    | true =>
      unfold alGet
      rw [List.map_cons, if_pos hq, List.find?_cons_of_pos _ (by simp)]
      rfl
    | false =>
      rw [List.find?_cons_of_neg _ (by simp [hq])] at h
      have htl := ih h
      unfold alGet at htl ⊢
      rw [List.map_cons, if_neg (by simp [hq]), List.find?_cons_of_neg _ (by simp [hq])]
      exact htl

/-- Lookup after appending a fresh key. -/
theorem alGet_append_new (l : List (String × β)) (k : String) (v : β)
    (h : l.find? (fun p => p.1 == k) = none) :
    alGet (l ++ [(k, v)]) k = some v := by
  induction l with
  | nil =>
    unfold alGet
    rw [List.nil_append, List.find?_cons_of_pos _ (by simp)]
    rfl
  | cons q tl ih =>
    cases hq : (q.1 == k) with
    | true =>
      have hfound : List.find? (fun p => p.1 == k) (q :: tl) = some q :=
        List.find?_cons_of_pos tl hq
      rw [h] at hfound
      exact absurd hfound (by simp)
    | false =>
      rw [List.find?_cons_of_neg _ (by simp [hq])] at h
      have htl := ih h
      unfold alGet at htl ⊢
      rw [List.cons_append, List.find?_cons_of_neg _ (by simp [hq])]
      exact htl

/-- Setting a key makes lookup of that key return the new value. -/
theorem alGet_alSet (l : List (String × β)) (k : String) (v : β) :
    alGet (alSet l k v) k = some v := by
  unfold alSet
  split
  case isTrue h => exact alGet_map_overwrite l k v h
  case isFalse h =>
    have hn : l.find? (fun p => p.1 == k) = none := by
      cases hf : l.find? (fun p => p.1 == k) with
      | none => rfl
      | some p => exact absurd (by simp [hf]) h
    exact alGet_append_new l k v hn

/-- The trim of an empty message list is empty. -/
theorem trimToTokenBudget_nil (maxTokens : Nat) : trimToTokenBudget [] maxTokens = [] := rfl

-- ── Middleware pipeline lemma ──

/-- The dispatch chain executes the longest all-`callsNext` prefix followed
by the first short-circuiting middleware, if any. -/
theorem mwDispatch_eq (l : List MwSpec) :
    mwDispatch l =
      (l.takeWhile (fun m => m.callsNext)).map (fun m => m.id) ++
        ((l.dropWhile (fun m => m.callsNext)).head?.elim [] (fun m => [m.id])) := by
  induction l with
  | nil => rfl
  | cons m rest ih =>
    cases h : m.callsNext with
    | true => simp [mwDispatch, h, List.takeWhile_cons, List.dropWhile_cons, ih]
    | false => simp [mwDispatch, h, List.takeWhile_cons, List.dropWhile_cons]

/-- Dispatch runs the whole chain when every middleware calls `next`. -/
theorem mwDispatch_all (l : List MwSpec) (h : ∀ m ∈ l, m.callsNext = true) :
    mwDispatch l = l.map (fun m => m.id) := by
  induction l with
  | nil => rfl
  | cons m rest ih =>
    have hm := h m (List.mem_cons_self m rest)
    simp [mwDispatch, hm, ih (fun x hx => h x (List.mem_cons_of_mem m hx))]

-- ── Memory clear/read lemmas ──

/-- Reading a cleared session from `BufferMemory` yields nothing. -/
theorem bufRead_clear (cfg : BufferConfig) (store : BufStore) (sid : String) :
    bufRead cfg (bufClear store sid) (some sid) = [] := by
  unfold bufRead bufClear
  simp only [Option.getD_some, alGet_alDel, Option.getD_none]
  cases cfg.maxTokens with
  | none => rfl
  | some t =>
    dsimp only
    split <;> simp [trimToTokenBudget_nil]

/-- Reading a cleared session from `SlidingWindowMemory` yields nothing. -/
theorem swRead_clear (cfg : SlidingWindowConfig) (store : SWStore) (sid : String) :
    swRead cfg (swClear store sid) (some sid) = [] := by
  unfold swRead swClear
  simp [Option.getD_some, alGet_alDel, Option.getD_none, trimToTokenBudget_nil]

/-- Reading a cleared session from `SummarizingMemory` yields nothing. -/
theorem sumRead_clear (store : SumStore) (sid : String) :
    sumRead (sumClear store sid) (some sid) = [] := by
  unfold sumRead sumClear
  simp [Option.getD_some, alGet_alDel]

/-- Reading a cleared session from any composite child yields nothing. -/
theorem childRead_clear (p : ChildMemory) (sid : String) :
    childRead (some sid) (childClear sid p) = [] := by
  cases p with
  | buffer cfg store => exact bufRead_clear cfg store sid
  | sliding cfg store => exact swRead_clear cfg store sid
  | summarizing cfg c store => exact sumRead_clear store sid

/-- First-hit reading over cleared children yields nothing. -/
theorem firstHitGo_clear (providers : List ChildMemory) (sid : String) :
    firstHitGo (some sid) (providers.map (childClear sid)) = [] := by
  induction providers with
  | nil => rfl
  | cons p rest ih =>
    simp [firstHitGo, childRead_clear p sid, ih]

/-- Merged reads over cleared children yield nothing. -/
theorem mergeFlatten_clear (providers : List ChildMemory) (sid : String) :
    ((providers.map (childClear sid)).map (childRead (some sid))).flatten = [] := by
  induction providers with
  | nil => rfl
  | cons p rest ih =>
    rw [List.map_cons, List.map_cons, List.flatten_cons, childRead_clear p sid, ih]
    rfl

-- ── Sliding-window trim lemmas ──

/-- Token estimate of an appended list splits. -/
theorem estimateMessagesTokens_append (a b : List Message) :
    estimateMessagesTokens (a ++ b) = estimateMessagesTokens a + estimateMessagesTokens b := by
  simp [estimateMessagesTokens, List.map_append, List.sum_append]

/-- The newest-to-oldest walk keeps a (reversed) prefix of its input. -/
theorem takeNewest_take (maxTokens : Nat) :
    ∀ (rev : List Message) (tokens : Nat),
      ∃ n, takeNewest maxTokens rev tokens = (rev.take n).reverse := by
  intro rev
  induction rev with
  | nil => intro tokens; exact ⟨0, rfl⟩
  | cons m tl ih =>
    intro tokens
    unfold takeNewest
    dsimp only
    split
    · exact ⟨0, by simp⟩
    · obtain ⟨n, hn⟩ := ih (tokens + (estimateTokens m.content + 4))
      refine ⟨n + 1, ?_⟩
      rw [hn, List.take_succ_cons, List.reverse_cons]

/-- The walk never exceeds the budget (unless it returns nothing at all). -/
theorem takeNewest_budget (maxTokens : Nat) :
    ∀ (rev : List Message) (tokens : Nat),
      tokens + estimateMessagesTokens (takeNewest maxTokens rev tokens) ≤ maxTokens ∨
        takeNewest maxTokens rev tokens = [] := by
  intro rev
  induction rev with
  | nil => intro tokens; right; rfl
  | cons m tl ih =>
    intro tokens
    unfold takeNewest
    dsimp only
    split
    case isTrue h => right; rfl
    case isFalse h =>
      left
      rw [estimateMessagesTokens_append]
      have hm : estimateMessagesTokens [m] = estimateTokens m.content + 4 := by
        simp [estimateMessagesTokens]
      rw [hm]
      rcases ih (tokens + (estimateTokens m.content + 4)) with hle | hnil
      · omega
      · rw [hnil]
        simp only [estimateMessagesTokens, List.map_nil, List.sum_nil]
        omega

-- ── Step-delta lemmas for the engine helpers ──

/-- A tool_result-only delta contains no tool_call steps and no responses. -/
theorem toolResult_delta_flags {ds : List Step} (h : ∀ s ∈ ds, s.isToolResult = true) :
    (∀ s ∈ ds, s.isToolCallStep = false) ∧ ds.countP Step.isResponse = 0 := by
  constructor
  · intro s hs
    exact (toolResult_benign s (h s hs)).2
  · rw [List.countP_eq_zero]
    intro s hs
    simp [(toolResult_benign s (h s hs)).1]

/-- `critique` never touches the step list. -/
theorem critique_steps (P : Parsers) (policy : AgentPolicy) (script : List ModelResponse)
    (st : ExecState) : (critique P policy script st).1.steps = st.steps := by
  unfold critique
  rcases hC : callModel policy st script [] with ⟨st1, rest, exc⟩
  have hcm := callModel_steps policy st script []
  rw [hC] at hcm
  cases exc <;> simpa using hcm

/-- `makePlan` never touches the step list. -/
theorem makePlan_steps (P : Parsers) (policy : AgentPolicy) (input : String)
    (script : List ModelResponse) (st : ExecState) :
    (makePlan P policy input script st).1.steps = st.steps := by
  unfold makePlan
  rcases hC : callModel policy st script [] with ⟨st1, rest, exc⟩
  have hcm := callModel_steps policy st script []
  rw [hC] at hcm
  cases exc with
  | error e => simpa using hcm
  | ok resp =>
    dsimp only
    split <;> simpa using hcm

/-- `synthesize` never touches the step list. -/
theorem synthesize_steps (policy : AgentPolicy) (script : List ModelResponse)
    (st : ExecState) : (synthesize policy script st).1.steps = st.steps := by
  unfold synthesize
  rcases hC : callModel policy st script [] with ⟨st1, rest, exc⟩
  have hcm := callModel_steps policy st script []
  rw [hC] at hcm
  cases exc <;> simpa using hcm

/-- `_generateAnswer` appends only `tool_result` steps. -/
theorem generateAnswer_delta (P : Parsers) (tools : List ToolDef) (policy : AgentPolicy) :
    ∀ (fuel : Nat) (script : List ModelResponse) (st : ExecState),
      ∃ ds, (generateAnswer P tools policy fuel script st).1.steps = st.steps ++ ds ∧
        ∀ s ∈ ds, s.isToolResult = true := by
  intro fuel
  induction fuel with
  | zero => intro script st; exact ⟨[], by simp [generateAnswer]⟩
  | succ n ih =>
    intro script st
    unfold generateAnswer
    rcases hC : callModel policy st script st.messages with ⟨st1, rest, exc⟩
    have hcm := callModel_steps policy st script st.messages
    rw [hC] at hcm
    simp only at hcm
    cases exc with
    | error e => exact ⟨[], by simp [hcm]⟩
    | ok resp =>
      dsimp only
      split
      · exact ⟨[], by simp [hcm]⟩
      · obtain ⟨ds1, hds1, hall1⟩ := executeToolCalls_delta tools policy resp.toolCalls
          { st1 with messages := st1.messages ++ [resp.message] }
        rcases hE : executeToolCalls tools policy
            { st1 with messages := st1.messages ++ [resp.message] } resp.toolCalls
          with ⟨st3, exc2⟩
        rw [hE] at hds1
        simp only at hds1
        cases exc2 with
        | error e => exact ⟨ds1, by simp [hds1, hcm], hall1⟩
        | ok u =>
          obtain ⟨ds2, hds2, hall2⟩ := ih rest st3
          refine ⟨ds1 ++ ds2, ?_, ?_⟩
          · simp only [hds2, hds1, hcm, List.append_assoc]
          · intro s hs
            rcases List.mem_append.mp hs with h | h
            · exact hall1 s h
            · exact hall2 s h

/-- `_revise` appends only `tool_result` steps. -/
theorem reviseAnswer_delta (P : Parsers) (tools : List ToolDef) (policy : AgentPolicy)
    (script : List ModelResponse) (st : ExecState) :
    ∃ ds, (reviseAnswer P tools policy script st).1.steps = st.steps ++ ds ∧
      ∀ s ∈ ds, s.isToolResult = true := by
  unfold reviseAnswer
  rcases hC : callModel policy st script [] with ⟨st1, rest, exc⟩
  have hcm := callModel_steps policy st script []
  rw [hC] at hcm
  simp only at hcm
  cases exc with
  | error e => exact ⟨[], by simp [hcm]⟩
  | ok resp =>
    dsimp only
    split
    · obtain ⟨ds1, hds1, hall1⟩ := executeToolCalls_delta tools policy resp.toolCalls
        { st1 with messages := st1.messages ++ [resp.message] }
      rcases hE : executeToolCalls tools policy
          { st1 with messages := st1.messages ++ [resp.message] } resp.toolCalls
        with ⟨st3, exc2⟩
      rw [hE] at hds1
      simp only at hds1
      cases exc2 with
      | error e => exact ⟨ds1, by simp [hds1, hcm], hall1⟩
      | ok u =>
        dsimp only
        rcases hC2 : callModel policy st3 rest st3.messages with ⟨st4, rest2, exc3⟩
        have hcm2 := callModel_steps policy st3 rest st3.messages
        rw [hC2] at hcm2
        simp only at hcm2
        cases exc3 <;> exact ⟨ds1, by simp [hcm2, hds1, hcm], hall1⟩
    · exact ⟨[], by simp [hcm]⟩

/-- The tool sub-loop of `_executeTask` appends only `tool_result` steps. -/
theorem execTaskTools_delta (tools : List ToolDef) (policy : AgentPolicy) :
    ∀ (tcs : List ToolCall) (taskMsgs : List Message) (st : ExecState),
      ∃ ds, (execTaskTools tools policy tcs taskMsgs st).1.steps = st.steps ++ ds ∧
        ∀ s ∈ ds, s.isToolResult = true := by
  intro tcs
  induction tcs with
  | nil => intro taskMsgs st; exact ⟨[], by simp [execTaskTools]⟩
  | cons tc rest ih =>
    intro taskMsgs st
    unfold execTaskTools
    obtain ⟨ds1, hds1, hall1⟩ := callTool_delta tools policy st tc.name tc.arguments tc.id
    rcases hC : callTool tools policy st tc.name tc.arguments tc.id with ⟨st1, exc⟩
    rw [hC] at hds1
    simp only at hds1
    cases exc with
    | error e => exact ⟨ds1, by simp [hds1], hall1⟩
    | ok r =>
      obtain ⟨ds2, hds2, hall2⟩ := ih
        (taskMsgs ++ [{ role := .tool, content := jsonOfResult r, toolCallId := some tc.id }])
        st1
      refine ⟨ds1 ++ ds2, ?_, ?_⟩
      · simp only [hds2, hds1, List.append_assoc]
      · intro s hs
        rcases List.mem_append.mp hs with h | h
        · exact hall1 s h
        · exact hall2 s h

/-- `_executeTask`'s bounded model/tool loop appends only `tool_result`
steps. -/
theorem executeTaskLoop_delta (P : Parsers) (tools : List ToolDef) (policy : AgentPolicy)
    (taskId : String) :
    ∀ (fuel : Nat) (taskMsgs : List Message) (script : List ModelResponse) (st : ExecState),
      ∃ ds, (executeTaskLoop P tools policy taskId fuel taskMsgs script st).1.steps =
          st.steps ++ ds ∧
        ∀ s ∈ ds, s.isToolResult = true := by
  intro fuel
  induction fuel with
  | zero => intro taskMsgs script st; exact ⟨[], by simp [executeTaskLoop]⟩
  | succ n ih =>
    intro taskMsgs script st
    unfold executeTaskLoop
    rcases hC : callModel policy st script taskMsgs with ⟨st1, rest, exc⟩
    have hcm := callModel_steps policy st script taskMsgs
    rw [hC] at hcm
    simp only at hcm
    cases exc with
    | error e => exact ⟨[], by simp [hcm]⟩
    | ok resp =>
      dsimp only
      split
      · exact ⟨[], by simp [hcm]⟩
      · obtain ⟨ds1, hds1, hall1⟩ := execTaskTools_delta tools policy resp.toolCalls
          (taskMsgs ++ [resp.message]) st1
        rcases hE : execTaskTools tools policy resp.toolCalls (taskMsgs ++ [resp.message]) st1
          with ⟨st2, tm2, exc2⟩
        rw [hE] at hds1
        simp only at hds1
        cases exc2 with
        | error e => exact ⟨ds1, by simp [hds1, hcm], hall1⟩
        | ok u =>
          obtain ⟨ds2, hds2, hall2⟩ := ih tm2 rest st2
          refine ⟨ds1 ++ ds2, ?_, ?_⟩
          · simp only [hds2, hds1, hcm, List.append_assoc]
          · intro s hs
            rcases List.mem_append.mp hs with h | h
            · exact hall1 s h
            · exact hall2 s h

/-- `_executeTask` appends only `tool_result` steps. -/
theorem executeTask_delta (P : Parsers) (tools : List ToolDef) (policy : AgentPolicy)
    (task : PlanTask) (script : List ModelResponse) (st : ExecState) :
    ∃ ds, (executeTask P tools policy task script st).1.steps = st.steps ++ ds ∧
      ∀ s ∈ ds, s.isToolResult = true :=
  executeTaskLoop_delta P tools policy task.id 5 [] script st

/-- The Planner task pass appends only `thought` and `tool_result` steps:
never a `response`, never a `tool_call` step. -/
theorem plannerTasksLoop_delta (P : Parsers) (tools : List ToolDef) (policy : AgentPolicy)
    (cfg : PlannerConfig) :
    ∀ (tasks : List PlanTask) (execSteps : Nat) (processed : List PlanTask)
      (results : List (String × String)) (script : List ModelResponse) (st : ExecState),
      ∃ ds, (plannerTasksLoop P tools policy cfg tasks execSteps processed results
          script st).1.steps = st.steps ++ ds ∧
        ∀ s ∈ ds, s.isResponse = false ∧ s.isToolCallStep = false := by
  intro tasks
  induction tasks with
  | nil =>
    intro execSteps processed results script st
    exact ⟨[], by simp [plannerTasksLoop]⟩
  | cons task restTasks ih =>
    intro execSteps processed results script st
    unfold plannerTasksLoop
    split
    · exact ⟨[], by simp⟩
    · dsimp only
      split
      · exact ih execSteps (processed ++ [task]) results script st
      · obtain ⟨ds1, hds1, hall1⟩ := executeTask_delta P tools policy task script
          (pushStep st (.thought ("Executing task [" ++ task.id ++ "]: " ++ task.description)
            "planner"))
        rcases hT : executeTask P tools policy task script
            (pushStep st (.thought ("Executing task [" ++ task.id ++ "]: " ++ task.description)
              "planner")) with ⟨st2, rest2, exc⟩
        rw [hT] at hds1
        simp only at hds1
        have hben1 : ∀ s ∈ ds1, s.isResponse = false ∧ s.isToolCallStep = false :=
          fun s hs => toolResult_benign s (hall1 s hs)
        cases exc with
        | ok r =>
          obtain ⟨ds2, hds2, hall2⟩ := ih (execSteps + 1)
            (processed ++ [{ task with status := .done, result := some r }])
            (results ++ [(task.id, r)]) rest2 st2
          refine ⟨Step.thought ("Executing task [" ++ task.id ++ "]: " ++ task.description)
            "planner" :: (ds1 ++ ds2), ?_, ?_⟩
          · simp [hds2, hds1, pushStep, List.append_assoc]
          · intro s hs
            rcases List.mem_cons.mp hs with h | h
            · subst h; exact ⟨rfl, rfl⟩
            · rcases List.mem_append.mp h with h2 | h2
              · exact hben1 s h2
              · exact hall2 s h2
        | error e =>
          dsimp only
          split
          · refine ⟨Step.thought ("Executing task [" ++ task.id ++ "]: " ++ task.description)
              "planner" :: ds1, ?_, ?_⟩
            · simp [hds1, pushStep, List.append_assoc]
            · intro s hs
              rcases List.mem_cons.mp hs with h | h
              · subst h; exact ⟨rfl, rfl⟩
              · exact hben1 s h
          · obtain ⟨ds2, hds2, hall2⟩ := ih execSteps
              (processed ++ [{ task with status := .failed }]) results rest2 st2
            refine ⟨Step.thought ("Executing task [" ++ task.id ++ "]: " ++ task.description)
              "planner" :: (ds1 ++ ds2), ?_, ?_⟩
            · simp [hds2, hds1, pushStep, List.append_assoc]
            · intro s hs
              rcases List.mem_cons.mp hs with h | h
              · subst h; exact ⟨rfl, rfl⟩
              · rcases List.mem_append.mp h with h2 | h2
                · exact hben1 s h2
                · exact hall2 s h2

/-- The Reflect critique/revise loop appends only `reflection`, `thought`
and `tool_result` steps: never a `response`, never a `tool_call` step. -/
theorem reflectLoop_delta (P : Parsers) (tools : List ToolDef) (policy : AgentPolicy)
    (cfg : ReflectConfig) :
    ∀ (fuel i : Nat) (answer : String) (script : List ModelResponse) (st : ExecState),
      ∃ ds, (reflectLoop P tools policy cfg fuel i answer script st).1.steps =
          st.steps ++ ds ∧
        ∀ s ∈ ds, s.isResponse = false ∧ s.isToolCallStep = false := by
  intro fuel
  induction fuel with
  | zero => intro i answer script st; exact ⟨[], by simp [reflectLoop]⟩
  | succ n ih =>
    intro i answer script st
    unfold reflectLoop
    rcases hC : critique P policy script st with ⟨st1, rest, exc⟩
    have hcr := critique_steps P policy script st
    rw [hC] at hcr
    simp only at hcr
    cases exc with
    | error e => exact ⟨[], by simp [hcr]⟩
    | ok crit =>
      dsimp only
      split
      · refine ⟨[Step.reflection ("Score: " ++ toString crit.score ++ "/10. Issues: " ++
          String.intercalate "; " crit.issues ++ ". " ++ crit.suggestion) crit.needsRevision
          "reflect"], ?_, ?_⟩
        · simp [pushStep, hcr]
        · intro s hs
          rcases List.mem_singleton.mp hs with h
          subst h; exact ⟨rfl, rfl⟩
      · obtain ⟨ds1, hds1, hall1⟩ := reviseAnswer_delta P tools policy rest
          (pushStep (pushStep st1 (.reflection ("Score: " ++ toString crit.score ++
            "/10. Issues: " ++ String.intercalate "; " crit.issues ++ ". " ++ crit.suggestion)
            crit.needsRevision "reflect"))
            (.thought ("Revising answer (attempt " ++ toString (i + 1) ++ "/" ++
              toString cfg.maxReflections ++ ")...") "reflect"))
        rcases hR : reviseAnswer P tools policy rest
            (pushStep (pushStep st1 (.reflection ("Score: " ++ toString crit.score ++
              "/10. Issues: " ++ String.intercalate "; " crit.issues ++ ". " ++ crit.suggestion)
              crit.needsRevision "reflect"))
              (.thought ("Revising answer (attempt " ++ toString (i + 1) ++ "/" ++
                toString cfg.maxReflections ++ ")...") "reflect"))
          with ⟨st2, rest2, exc2⟩
        rw [hR] at hds1
        simp only at hds1
        have hben1 : ∀ s ∈ ds1, s.isResponse = false ∧ s.isToolCallStep = false :=
          fun s hs => toolResult_benign s (hall1 s hs)
        cases exc2 with
        | error e =>
          refine ⟨Step.reflection ("Score: " ++ toString crit.score ++ "/10. Issues: " ++
              String.intercalate "; " crit.issues ++ ". " ++ crit.suggestion)
              crit.needsRevision "reflect" ::
            Step.thought ("Revising answer (attempt " ++ toString (i + 1) ++ "/" ++
              toString cfg.maxReflections ++ ")...") "reflect" :: ds1, ?_, ?_⟩
          · simp [hds1, pushStep, hcr, List.append_assoc]
          · intro s hs
            rcases List.mem_cons.mp hs with h | h
            · subst h; exact ⟨rfl, rfl⟩
            · rcases List.mem_cons.mp h with h2 | h2
              · subst h2; exact ⟨rfl, rfl⟩
              · exact hben1 s h2
        | ok answer1 =>
          obtain ⟨ds2, hds2, hall2⟩ := ih (i + 1) answer1 rest2 st2
          refine ⟨Step.reflection ("Score: " ++ toString crit.score ++ "/10. Issues: " ++
              String.intercalate "; " crit.issues ++ ". " ++ crit.suggestion)
              crit.needsRevision "reflect" ::
            Step.thought ("Revising answer (attempt " ++ toString (i + 1) ++ "/" ++
              toString cfg.maxReflections ++ ")...") "reflect" :: (ds1 ++ ds2), ?_, ?_⟩
          · simp [hds2, hds1, pushStep, hcr, List.append_assoc]
          · intro s hs
            rcases List.mem_cons.mp hs with h | h
            · subst h; exact ⟨rfl, rfl⟩
            · rcases List.mem_cons.mp h with h2 | h2
              · subst h2; exact ⟨rfl, rfl⟩
              · rcases List.mem_append.mp h2 with h3 | h3
                · exact hben1 s h3
                · exact hall2 s h3

-- ── Terminal loop shape lemmas ──

/-- The ReAct loop never pushes a `tool_call` step, and a successful exit
pushes the `response` step for its output as the very last step, with no
other response in the delta. -/
theorem reactLoop_shape (tools : List ToolDef) (policy : AgentPolicy) :
    ∀ (fuel : Nat) (script : List ModelResponse) (st : ExecState),
      ∃ ds, (reactLoop tools policy fuel script st).1.steps = st.steps ++ ds ∧
        (∀ s ∈ ds, s.isToolCallStep = false) ∧
        ∀ out, (reactLoop tools policy fuel script st).2 = .ok out →
          ∃ pre, ds = pre ++ [.response out "react"] ∧ pre.countP Step.isResponse = 0 := by
  intro fuel
  induction fuel with
  | zero =>
    intro script st
    refine ⟨[], by simp [reactLoop], by simp, ?_⟩
    intro out h
    simp [reactLoop] at h
  | succ n ih =>
    intro script st
    unfold reactLoop
    rcases hC : callModel policy st script st.messages with ⟨st1, rest, exc⟩
    have hcm := callModel_steps policy st script st.messages
    rw [hC] at hcm
    simp only at hcm
    cases exc with
    | error e =>
      refine ⟨[], by simp [hcm], by simp, ?_⟩
      intro out h
      simp at h
    | ok resp =>
      dsimp only
      cases hth : (resp.message.content != "" && !resp.toolCalls.isEmpty) with
      | true =>
        simp only [hth, if_true]
        cases hte : resp.toolCalls.isEmpty with
        | true =>
          simp only [hte, if_true]
          refine ⟨[.thought resp.message.content "react", .response resp.message.content
            "react"], by simp [pushStep, hcm], by simp [Step.isToolCallStep], ?_⟩
          intro out h
          simp at h
          subst h
          exact ⟨[.thought resp.message.content "react"], by simp,
            by simp [Step.isResponse]⟩
        | false =>
          simp only [hte, Bool.false_eq_true, if_false]
          obtain ⟨ds1, hds1, hall1⟩ := executeToolCalls_delta tools policy resp.toolCalls
            (pushStep { st1 with messages := st1.messages ++ [resp.message] }
              (.thought resp.message.content "react"))
          rcases hE : executeToolCalls tools policy
              (pushStep { st1 with messages := st1.messages ++ [resp.message] }
                (.thought resp.message.content "react")) resp.toolCalls
            with ⟨st4, exc2⟩
          rw [hE] at hds1
          simp only at hds1
          obtain ⟨hfree1, hcnt1⟩ := toolResult_delta_flags hall1
          cases exc2 with
          | error e =>
            refine ⟨Step.thought resp.message.content "react" :: ds1,
              by simp [hds1, pushStep, hcm, List.append_assoc], ?_, ?_⟩
            · intro s hs
              rcases List.mem_cons.mp hs with h | h
              · subst h; rfl
              · exact hfree1 s h
            · intro out h
              simp at h
          | ok u =>
            obtain ⟨ds2, hds2, hfree2, hok2⟩ := ih rest st4
            refine ⟨Step.thought resp.message.content "react" :: (ds1 ++ ds2),
              by simp [hds2, hds1, pushStep, hcm, List.append_assoc], ?_, ?_⟩
            · intro s hs
              rcases List.mem_cons.mp hs with h | h
              · subst h; rfl
              · rcases List.mem_append.mp h with h2 | h2
                · exact hfree1 s h2
                · exact hfree2 s h2
            · intro out h
              obtain ⟨pre2, hpre2, hcnt2⟩ := hok2 out h
              refine ⟨Step.thought resp.message.content "react" :: (ds1 ++ pre2), ?_, ?_⟩
              · simp [hpre2, List.append_assoc]
              · simp [List.countP_cons, List.countP_append, hcnt1, hcnt2, Step.isResponse]
      | false =>
        simp only [hth, Bool.false_eq_true, if_false]
        cases hte : resp.toolCalls.isEmpty with
        | true =>
          simp only [hte, if_true]
          refine ⟨[.response resp.message.content "react"], by simp [pushStep, hcm],
            by simp [Step.isToolCallStep], ?_⟩
          intro out h
          simp at h
          subst h
          exact ⟨[], by simp, by simp⟩
        | false =>
          simp only [hte, Bool.false_eq_true, if_false]
          obtain ⟨ds1, hds1, hall1⟩ := executeToolCalls_delta tools policy resp.toolCalls
            { st1 with messages := st1.messages ++ [resp.message] }
          rcases hE : executeToolCalls tools policy
              { st1 with messages := st1.messages ++ [resp.message] } resp.toolCalls
            with ⟨st4, exc2⟩
          rw [hE] at hds1
          simp only at hds1
          obtain ⟨hfree1, hcnt1⟩ := toolResult_delta_flags hall1
          cases exc2 with
          | error e =>
            refine ⟨ds1, by simp [hds1, hcm], hfree1, ?_⟩
            intro out h
            simp at h
          | ok u =>
            obtain ⟨ds2, hds2, hfree2, hok2⟩ := ih rest st4
            refine ⟨ds1 ++ ds2, by simp [hds2, hds1, hcm, List.append_assoc], ?_, ?_⟩
            · intro s hs
              rcases List.mem_append.mp hs with h | h
              · exact hfree1 s h
              · exact hfree2 s h
            · intro out h
              obtain ⟨pre2, hpre2, hcnt2⟩ := hok2 out h
              refine ⟨ds1 ++ pre2, ?_, ?_⟩
              · simp [hpre2, List.append_assoc]
              · simp [List.countP_append, hcnt1, hcnt2]

/-- The CoT tool loop never pushes a `tool_call` step, and a successful exit
pushes the `response` step for its output last, with no other response. -/
theorem cotToolLoop_shape (P : Parsers) (tools : List ToolDef) (policy : AgentPolicy) :
    ∀ (fuel : Nat) (script : List ModelResponse) (st : ExecState),
      ∃ ds, (cotToolLoop P tools policy fuel script st).1.steps = st.steps ++ ds ∧
        (∀ s ∈ ds, s.isToolCallStep = false) ∧
        ∀ out, (cotToolLoop P tools policy fuel script st).2 = .ok out →
          ∃ pre, ds = pre ++ [.response out "cot"] ∧ pre.countP Step.isResponse = 0 := by
  intro fuel
  induction fuel with
  | zero =>
    intro script st
    refine ⟨[], by simp [cotToolLoop], by simp, ?_⟩
    intro out h
    simp [cotToolLoop] at h
  | succ n ih =>
    intro script st
    unfold cotToolLoop
    rcases hC : callModel policy st script st.messages with ⟨st1, rest, exc⟩
    have hcm := callModel_steps policy st script st.messages
    rw [hC] at hcm
    simp only at hcm
    cases exc with
    | error e =>
      refine ⟨[], by simp [hcm], by simp, ?_⟩
      intro out h
      simp at h
    | ok next =>
      dsimp only
      cases hte : next.toolCalls.isEmpty with
      | true =>
        simp only [hte, if_true]
        refine ⟨[.response (P.extractText next.message.content) "cot"],
          by simp [pushStep, hcm], by simp [Step.isToolCallStep], ?_⟩
        intro out h
        simp at h
        subst h
        exact ⟨[], by simp, by simp⟩
      | false =>
        simp only [hte, Bool.false_eq_true, if_false]
        obtain ⟨ds1, hds1, hall1⟩ := executeToolCalls_delta tools policy next.toolCalls
          { st1 with messages := st1.messages ++ [next.message] }
        rcases hE : executeToolCalls tools policy
            { st1 with messages := st1.messages ++ [next.message] } next.toolCalls
          with ⟨st3, exc2⟩
        rw [hE] at hds1
        simp only at hds1
        obtain ⟨hfree1, hcnt1⟩ := toolResult_delta_flags hall1
        cases exc2 with
        | error e =>
          refine ⟨ds1, by simp [hds1, hcm], hfree1, ?_⟩
          intro out h
          simp at h
        | ok u =>
          obtain ⟨ds2, hds2, hfree2, hok2⟩ := ih rest st3
          refine ⟨ds1 ++ ds2, by simp [hds2, hds1, hcm, List.append_assoc], ?_, ?_⟩
          · intro s hs
            rcases List.mem_append.mp hs with h | h
            · exact hfree1 s h
            · exact hfree2 s h
          · intro out h
            obtain ⟨pre2, hpre2, hcnt2⟩ := hok2 out h
            refine ⟨ds1 ++ pre2, ?_, ?_⟩
            · simp [hpre2, List.append_assoc]
            · simp [List.countP_append, hcnt1, hcnt2]

/-- The Autonomous loop never pushes a `tool_call` step, and a successful
exit (finish call or implicit tool-free turn) pushes the `response` step for
its output last, with no other response. -/
theorem autonomousLoop_shape (P : Parsers) (tools : List ToolDef) (policy : AgentPolicy)
    (cfg : AutonomousConfig) :
    ∀ (fuel : Nat) (script : List ModelResponse) (st : ExecState),
      ∃ ds, (autonomousLoop P tools policy cfg fuel script st).1.steps = st.steps ++ ds ∧
        (∀ s ∈ ds, s.isToolCallStep = false) ∧
        ∀ out, (autonomousLoop P tools policy cfg fuel script st).2 = .ok out →
          ∃ pre, ds = pre ++ [.response out "autonomous"] ∧
            pre.countP Step.isResponse = 0 := by
  intro fuel
  induction fuel with
  | zero =>
    intro script st
    refine ⟨[], by simp [autonomousLoop], by simp, ?_⟩
    intro out h
    simp [autonomousLoop] at h
  | succ n ih =>
    intro script st
    cases script with
    | nil =>
      refine ⟨[], by simp [autonomousLoop], by simp, ?_⟩
      intro out h
      simp [autonomousLoop] at h
    | cons resp rest =>
      unfold autonomousLoop
      dsimp only
      rcases hA : applyUsage policy st resp with ⟨st1, exc⟩
      have h1 := applyUsage_fst policy st resp
      rw [hA] at h1
      simp only at h1
      have hstp : st1.steps = st.steps := by rw [h1]
      cases exc with
      | error e =>
        refine ⟨[], by simp [hstp], by simp, ?_⟩
        intro out h
        simp at h
      | ok u =>
        dsimp only
        cases hth : (resp.message.content != "") with
        | true =>
          simp only [hth, if_true]
          cases hte : resp.toolCalls.isEmpty with
          | true =>
            simp only [hte, Bool.not_true, Bool.false_eq_true, if_false]
            refine ⟨[.thought resp.message.content "autonomous",
              .response (P.extractText resp.message.content) "autonomous"],
              by simp [pushStep, hstp], by simp [Step.isToolCallStep], ?_⟩
            intro out h
            simp at h
            subst h
            exact ⟨[.thought resp.message.content "autonomous"], by simp,
              by simp [Step.isResponse]⟩
          | false =>
            simp only [hte, Bool.not_false, if_true]
            cases hfind : resp.toolCalls.find? (fun tc => tc.name == cfg.finishToolName) with
            | some fc =>
              dsimp only
              refine ⟨[.thought resp.message.content "autonomous",
                .response (fc.arguments.result.getD resp.message.content) "autonomous"],
                by simp [pushStep, hstp], by simp [Step.isToolCallStep], ?_⟩
              intro out h
              simp at h
              subst h
              exact ⟨[.thought resp.message.content "autonomous"], by simp,
                by simp [Step.isResponse]⟩
            | none =>
              dsimp only
              obtain ⟨ds1, hds1, hall1⟩ := executeToolCalls_delta tools policy
                (resp.toolCalls.filter (fun tc => !(tc.name == cfg.finishToolName)))
                (pushStep { st1 with messages := st1.messages ++ [resp.message] }
                  (.thought resp.message.content "autonomous"))
              rcases hE : executeToolCalls tools policy
                  (pushStep { st1 with messages := st1.messages ++ [resp.message] }
                    (.thought resp.message.content "autonomous"))
                  (resp.toolCalls.filter (fun tc => !(tc.name == cfg.finishToolName)))
                with ⟨st4, exc2⟩
              rw [hE] at hds1
              simp only at hds1
              obtain ⟨hfree1, hcnt1⟩ := toolResult_delta_flags hall1
              cases exc2 with
              | error e =>
                refine ⟨Step.thought resp.message.content "autonomous" :: ds1,
                  by simp [hds1, pushStep, hstp, List.append_assoc], ?_, ?_⟩
                · intro s hs
                  rcases List.mem_cons.mp hs with h | h
                  · subst h; rfl
                  · exact hfree1 s h
                · intro out h
                  simp at h
              | ok v =>
                obtain ⟨ds2, hds2, hfree2, hok2⟩ := ih rest st4
                refine ⟨Step.thought resp.message.content "autonomous" :: (ds1 ++ ds2),
                  by simp [hds2, hds1, pushStep, hstp, List.append_assoc], ?_, ?_⟩
                · intro s hs
                  rcases List.mem_cons.mp hs with h | h
                  · subst h; rfl
                  · rcases List.mem_append.mp h with h2 | h2
                    · exact hfree1 s h2
                    · exact hfree2 s h2
                · intro out h
                  obtain ⟨pre2, hpre2, hcnt2⟩ := hok2 out h
                  refine ⟨Step.thought resp.message.content "autonomous" :: (ds1 ++ pre2),
                    ?_, ?_⟩
                  · simp [hpre2, List.append_assoc]
                  · simp [List.countP_cons, List.countP_append, hcnt1, hcnt2,
                      Step.isResponse]
        | false =>
          simp only [hth, Bool.false_eq_true, if_false]
          cases hte : resp.toolCalls.isEmpty with
          | true =>
            simp only [hte, Bool.not_true, Bool.false_eq_true, if_false]
            refine ⟨[.response (P.extractText resp.message.content) "autonomous"],
              by simp [pushStep, hstp], by simp [Step.isToolCallStep], ?_⟩
            intro out h
            simp at h
            subst h
            exact ⟨[], by simp, by simp⟩
          | false =>
            simp only [hte, Bool.not_false, if_true]
            cases hfind : resp.toolCalls.find? (fun tc => tc.name == cfg.finishToolName) with
            | some fc =>
              dsimp only
              refine ⟨[.response (fc.arguments.result.getD resp.message.content)
                "autonomous"], by simp [pushStep, hstp], by simp [Step.isToolCallStep], ?_⟩
              intro out h
              simp at h
              subst h
              exact ⟨[], by simp, by simp⟩
            | none =>
              dsimp only
              obtain ⟨ds1, hds1, hall1⟩ := executeToolCalls_delta tools policy
                (resp.toolCalls.filter (fun tc => !(tc.name == cfg.finishToolName)))
                { st1 with messages := st1.messages ++ [resp.message] }
              rcases hE : executeToolCalls tools policy
                  { st1 with messages := st1.messages ++ [resp.message] }
                  (resp.toolCalls.filter (fun tc => !(tc.name == cfg.finishToolName)))
                with ⟨st4, exc2⟩
              rw [hE] at hds1
              simp only at hds1
              obtain ⟨hfree1, hcnt1⟩ := toolResult_delta_flags hall1
              cases exc2 with
              | error e =>
                refine ⟨ds1, by simp [hds1, hstp], hfree1, ?_⟩
                intro out h
                simp at h
              | ok v =>
                obtain ⟨ds2, hds2, hfree2, hok2⟩ := ih rest st4
                refine ⟨ds1 ++ ds2, by simp [hds2, hds1, hstp, List.append_assoc], ?_, ?_⟩
                · intro s hs
                  rcases List.mem_append.mp hs with h | h
                  · exact hfree1 s h
                  · exact hfree2 s h
                · intro out h
                  obtain ⟨pre2, hpre2, hcnt2⟩ := hok2 out h
                  refine ⟨ds1 ++ pre2, ?_, ?_⟩
                  · simp [hpre2, List.append_assoc]
                  · simp [List.countP_append, hcnt1, hcnt2]

/-- `ReactEngine.execute` shape: no `tool_call` steps; a successful run ends
in exactly the one `response` step for its output. -/
theorem reactRun_shape (cfg : ReactConfig) (tools : List ToolDef) (policy : AgentPolicy)
    (script : List ModelResponse) (st : ExecState) :
    ∃ ds, (reactRun cfg tools policy script st).1.steps = st.steps ++ ds ∧
      (∀ s ∈ ds, s.isToolCallStep = false) ∧
      ∀ out, (reactRun cfg tools policy script st).2 = .ok out →
        ∃ pre, ds = pre ++ [.response out "react"] ∧ pre.countP Step.isResponse = 0 :=
  reactLoop_shape tools policy cfg.maxSteps script st

/-- `AutonomousEngine.execute` shape: no `tool_call` steps; a successful run
ends in exactly the one `response` step for its output. -/
theorem autonomousRun_shape (cfg : AutonomousConfig) (P : Parsers) (tools : List ToolDef)
    (policy : AgentPolicy) (script : List ModelResponse) (st : ExecState) :
    ∃ ds, (autonomousRun cfg P tools policy script st).1.steps = st.steps ++ ds ∧
      (∀ s ∈ ds, s.isToolCallStep = false) ∧
      ∀ out, (autonomousRun cfg P tools policy script st).2 = .ok out →
        ∃ pre, ds = pre ++ [.response out "autonomous"] ∧
          pre.countP Step.isResponse = 0 :=
  autonomousLoop_shape P tools policy cfg cfg.maxSteps script st

/-- `ChainOfThoughtEngine.execute` shape: no `tool_call` steps; a successful
run ends in exactly the one `response` step for its output. -/
theorem cotRun_shape (cfg : CotConfig) (P : Parsers) (tools : List ToolDef)
    (policy : AgentPolicy) (script : List ModelResponse) (st : ExecState) :
    ∃ ds, (cotRun cfg P tools policy script st).1.steps = st.steps ++ ds ∧
      (∀ s ∈ ds, s.isToolCallStep = false) ∧
      ∀ out, (cotRun cfg P tools policy script st).2 = .ok out →
        ∃ pre, ds = pre ++ [.response out "cot"] ∧ pre.countP Step.isResponse = 0 := by
  unfold cotRun
  rcases hC : callModel policy st script (injectInstruction cfg st.messages)
    with ⟨st1, rest, exc⟩
  have hcm := callModel_steps policy st script (injectInstruction cfg st.messages)
  rw [hC] at hcm
  simp only at hcm
  cases exc with
  | error e =>
    refine ⟨[], by simp [hcm], by simp, ?_⟩
    intro out h
    simp at h
  | ok resp =>
    dsimp only
    have main : ∀ (stT : ExecState) (t : List Step),
        stT.steps = st.steps ++ t →
        (∀ s ∈ t, s.isToolCallStep = false) →
        t.countP Step.isResponse = 0 →
        ∃ ds,
          (if resp.toolCalls.isEmpty = true then
            (pushStep stT (.response (P.extractText resp.message.content) "cot"),
              Except.ok (P.extractText resp.message.content))
          else
            match executeToolCalls tools policy stT resp.toolCalls with
            | (st4, .error e) => (st4, .error e)
            | (st4, .ok _) =>
              cotToolLoop P tools policy (cfg.maxToolSteps - 1) rest st4).1.steps =
            st.steps ++ ds ∧
          (∀ s ∈ ds, s.isToolCallStep = false) ∧
          ∀ out,
            (if resp.toolCalls.isEmpty = true then
              (pushStep stT (.response (P.extractText resp.message.content) "cot"),
                Except.ok (P.extractText resp.message.content))
            else
              match executeToolCalls tools policy stT resp.toolCalls with
              | (st4, .error e) => (st4, .error e)
              | (st4, .ok _) =>
                cotToolLoop P tools policy (cfg.maxToolSteps - 1) rest st4).2 = .ok out →
            ∃ pre, ds = pre ++ [.response out "cot"] ∧
              pre.countP Step.isResponse = 0 := by
      intro stT t hT hfreeT hcntT
      cases hte : resp.toolCalls.isEmpty with
      | true =>
        simp only [hte, if_true]
        refine ⟨t ++ [.response (P.extractText resp.message.content) "cot"],
          by simp [pushStep, hT, List.append_assoc], ?_, ?_⟩
        · intro s hs
          rcases List.mem_append.mp hs with h | h
          · exact hfreeT s h
          · rcases List.mem_singleton.mp h with h2
            subst h2; rfl
        · intro out h
          simp at h
          subst h
          exact ⟨t, rfl, hcntT⟩
      | false =>
        simp only [hte, Bool.false_eq_true, if_false]
        obtain ⟨ds1, hds1, hall1⟩ := executeToolCalls_delta tools policy resp.toolCalls stT
        rcases hE : executeToolCalls tools policy stT resp.toolCalls with ⟨st4, exc2⟩
        rw [hE] at hds1
        simp only at hds1
        obtain ⟨hfree1, hcnt1⟩ := toolResult_delta_flags hall1
        cases exc2 with
        | error e =>
          refine ⟨t ++ ds1, by simp [hds1, hT, List.append_assoc], ?_, ?_⟩
          · intro s hs
            rcases List.mem_append.mp hs with h | h
            · exact hfreeT s h
            · exact hfree1 s h
          · intro out h
            simp at h
        | ok u =>
          obtain ⟨ds2, hds2, hfree2, hok2⟩ :=
            cotToolLoop_shape P tools policy (cfg.maxToolSteps - 1) rest st4
          refine ⟨t ++ ds1 ++ ds2, by simp [hds2, hds1, hT, List.append_assoc], ?_, ?_⟩
          · intro s hs
            rcases List.mem_append.mp hs with h | h
            · rcases List.mem_append.mp h with h2 | h2
              · exact hfreeT s h2
              · exact hfree1 s h2
            · exact hfree2 s h
          · intro out h
            obtain ⟨pre2, hpre2, hcnt2⟩ := hok2 out h
            refine ⟨t ++ ds1 ++ pre2, ?_, ?_⟩
            · simp [hpre2, List.append_assoc]
            · simp [List.countP_append, hcntT, hcnt1, hcnt2]
    cases hut : cfg.useThinkingTags with
    | false =>
      simp only [hut, Bool.false_eq_true, if_false]
      exact main { st1 with messages := st1.messages ++ [resp.message] } [] (by simp [hcm])
        (by simp) (by simp)
    | true =>
      simp only [hut, if_true]
      cases hex : P.extractThinking resp.message.content with
      | none =>
        simp only [hex]
        exact main { st1 with messages := st1.messages ++ [resp.message] } [] (by simp [hcm])
          (by simp) (by simp)
      | some thinking =>
        simp only [hex]
        cases hthne : (thinking != "") with
        | false =>
          simp only [hthne, Bool.false_eq_true, if_false]
          exact main { st1 with messages := st1.messages ++ [resp.message] } []
            (by simp [hcm]) (by simp) (by simp)
        | true =>
          simp only [hthne, if_true]
          exact main
            (pushStep { st1 with messages := st1.messages ++ [resp.message] }
              (.thought thinking "cot"))
            [.thought thinking "cot"] (by simp [pushStep, hcm])
            (by simp [Step.isToolCallStep]) (by simp [Step.isResponse])

/-- `PlannerEngine.execute` shape: no `tool_call` steps; a successful run
ends in exactly the one `response` step for its output. -/
theorem plannerRun_shape (cfg : PlannerConfig) (P : Parsers) (tools : List ToolDef)
    (policy : AgentPolicy) (input : String) (script : List ModelResponse) (st : ExecState) :
    ∃ ds, (plannerRun cfg P tools policy input script st).1.steps = st.steps ++ ds ∧
      (∀ s ∈ ds, s.isToolCallStep = false) ∧
      ∀ out, (plannerRun cfg P tools policy input script st).2 = .ok out →
        ∃ pre, ds = pre ++ [.response out "planner"] ∧
          pre.countP Step.isResponse = 0 := by
  unfold plannerRun
  rcases hM : makePlan P policy input script st with ⟨st1, rest, exc⟩
  have hm := makePlan_steps P policy input script st
  rw [hM] at hm
  simp only at hm
  cases exc with
  | error e =>
    refine ⟨[], by simp [hm], by simp, ?_⟩
    intro out h
    simp at h
  | ok plan =>
    dsimp only
    obtain ⟨ds1, hds1, hfree1⟩ := plannerTasksLoop_delta P tools policy cfg plan 0 [] []
      rest (pushStep st1 (.plan plan "planner"))
    rcases hL : plannerTasksLoop P tools policy cfg plan 0 [] [] rest
        (pushStep st1 (.plan plan "planner")) with ⟨st3, rest2, processed, results, exc2⟩
    rw [hL] at hds1
    simp only at hds1
    cases exc2 with
    | error e =>
      refine ⟨Step.plan plan "planner" :: ds1,
        by simp [hds1, pushStep, hm, List.append_assoc], ?_, ?_⟩
      · intro s hs
        rcases List.mem_cons.mp hs with h | h
        · subst h; rfl
        · exact (hfree1 s h).2
      · intro out h
        simp at h
    | ok u =>
      dsimp only
      rcases hS : synthesize policy rest2 st3 with ⟨st4, rest3, exc3⟩
      have hs4 := synthesize_steps policy rest2 st3
      rw [hS] at hs4
      simp only at hs4
      cases exc3 with
      | error e =>
        refine ⟨Step.plan plan "planner" :: ds1,
          by simp [hs4, hds1, pushStep, hm, List.append_assoc], ?_, ?_⟩
        · intro s hs
          rcases List.mem_cons.mp hs with h | h
          · subst h; rfl
          · exact (hfree1 s h).2
        · intro out h
          simp at h
      | ok summary =>
        refine ⟨Step.plan plan "planner" :: ds1 ++ [.response summary "planner"],
          by simp [pushStep, hs4, hds1, hm, List.append_assoc], ?_, ?_⟩
        · intro s hs
          rcases List.mem_append.mp hs with h | h
          · rcases List.mem_cons.mp h with h2 | h2
            · subst h2; rfl
            · exact (hfree1 s h2).2
          · rcases List.mem_singleton.mp h with h2
            subst h2; rfl
        · intro out h
          simp at h
          subst h
          refine ⟨Step.plan plan "planner" :: ds1, rfl, ?_⟩
          rw [List.countP_eq_zero]
          intro s hs
          rcases List.mem_cons.mp hs with h2 | h2
          · subst h2; simp [Step.isResponse]
          · simp [(hfree1 s h2).1]

/-- `ReflectEngine.execute` shape: no `tool_call` steps; a successful run
ends in exactly the one `response` step for its output. -/
theorem reflectRun_shape (cfg : ReflectConfig) (P : Parsers) (tools : List ToolDef)
    (policy : AgentPolicy) (script : List ModelResponse) (st : ExecState) :
    ∃ ds, (reflectRun cfg P tools policy script st).1.steps = st.steps ++ ds ∧
      (∀ s ∈ ds, s.isToolCallStep = false) ∧
      ∀ out, (reflectRun cfg P tools policy script st).2 = .ok out →
        ∃ pre, ds = pre ++ [.response out "reflect"] ∧
          pre.countP Step.isResponse = 0 := by
  unfold reflectRun
  obtain ⟨ds1, hds1, hall1⟩ := generateAnswer_delta P tools policy cfg.maxAnswerSteps
    script st
  rcases hG : generateAnswer P tools policy cfg.maxAnswerSteps script st
    with ⟨st1, rest, exc⟩
  rw [hG] at hds1
  simp only at hds1
  obtain ⟨hfree1, hcnt1⟩ := toolResult_delta_flags hall1
  cases exc with
  | error e =>
    refine ⟨ds1, by simp [hds1], hfree1, ?_⟩
    intro out h
    simp at h
  | ok answer =>
    dsimp only
    obtain ⟨ds2, hds2, hfree2⟩ := reflectLoop_delta P tools policy cfg cfg.maxReflections 0
      answer rest (pushStep st1 (.thought "Initial answer generated." "reflect"))
    rcases hL : reflectLoop P tools policy cfg cfg.maxReflections 0 answer rest
        (pushStep st1 (.thought "Initial answer generated." "reflect"))
      with ⟨st3, rest2, exc2⟩
    rw [hL] at hds2
    simp only at hds2
    cases exc2 with
    | error e =>
      refine ⟨ds1 ++ Step.thought "Initial answer generated." "reflect" :: ds2,
        by simp [hds2, hds1, pushStep, List.append_assoc], ?_, ?_⟩
      · intro s hs
        rcases List.mem_append.mp hs with h | h
        · exact hfree1 s h
        · rcases List.mem_cons.mp h with h2 | h2
          · subst h2; rfl
          · exact (hfree2 s h2).2
      · intro out h
        simp at h
    | ok finalAnswer =>
      refine ⟨(ds1 ++ Step.thought "Initial answer generated." "reflect" :: ds2) ++
        [.response finalAnswer "reflect"],
        by simp [pushStep, hds2, hds1, List.append_assoc], ?_, ?_⟩
      · intro s hs
        rcases List.mem_append.mp hs with h | h
        · rcases List.mem_append.mp h with h2 | h2
          · exact hfree1 s h2
          · rcases List.mem_cons.mp h2 with h3 | h3
            · subst h3; rfl
            · exact (hfree2 s h3).2
        · rcases List.mem_singleton.mp h with h2
          subst h2; rfl
      · intro out h
        simp at h
        subst h
        refine ⟨ds1 ++ Step.thought "Initial answer generated." "reflect" :: ds2, rfl, ?_⟩
        rw [List.countP_eq_zero]
        intro s hs
        rcases List.mem_append.mp hs with h | h
        · simp [(toolResult_benign s (hall1 s h)).1]
        · rcases List.mem_cons.mp h with h2 | h2
          · subst h2; simp [Step.isResponse]
          · simp [(hfree2 s h2).1]

/-- A `tool_result` step is neither a `reflection` nor a `thought` step. -/
theorem toolResult_not_reflective (s : Step) (h : s.isToolResult = true) :
    s.isReflection = false ∧ s.isThought = false := by
  cases s <;> simp_all [Step.isToolResult, Step.isReflection, Step.isThought]

-- ═══════════════════════════ Claim theorems ═══════════════════════════

/-- C2: for a registered, policy-allowed tool, `callTool` — on success and
on thrown error alike — appends exactly one `tool` message, exactly one
`tool_result` step (with an `error` field and a `null` result on failure),
and exactly one `(call, result)` pair to `toolCalls`, emits `tool:before`
then `tool:after` and runs the correspondingly scoped middleware, and on
failure re-raises the original error after that bookkeeping. -/
theorem C2_callTool_bookkeeping (tools : List ToolDef) (policy : AgentPolicy)
    (st : ExecState) (name : String) (args : ToolCallArgs) (callId : String)
    (tool : ToolDef) (hlook : registryGet tools name = some tool)
    (hallow : isAllowed name policy.allowedTools = true) :
    (∀ r, tool.execute args = .ok r →
      callTool tools policy st name args callId =
        ({ st with
            steps := st.steps ++ [.toolResult name callId (some r) none "runtime"]
            toolCalls := st.toolCalls ++ [(⟨callId, name, args⟩, some r)]
            messages := st.messages ++
              [{ role := .tool, content := jsonOfResult r, toolCallId := some callId }]
            events := st.events ++ ["tool:before", "tool:after"]
            mwRuns := st.mwRuns ++ ["tool:before", "tool:after"] }, .ok r)) ∧
    (∀ e, tool.execute args = .error e →
      callTool tools policy st name args callId =
        ({ st with
            steps := st.steps ++ [.toolResult name callId none (some e) "runtime"]
            toolCalls := st.toolCalls ++ [(⟨callId, name, args⟩, none)]
            messages := st.messages ++
              [{ role := .tool, content := jsonOfError e, toolCallId := some callId }]
            events := st.events ++ ["tool:before", "tool:after"]
            mwRuns := st.mwRuns ++ ["tool:before", "tool:after"] }, .error e)) := by
  constructor
  · intro r hexec
    simp [callTool, hlook, hallow, hexec]
  · intro e hexec
    simp [callTool, hlook, hallow, hexec]

/-- C2 witness: the bookkeeping equalities hold for a concrete registry, on
both the success path and the failure path. -/
theorem C2_witness :
    callTool [okTool, boomTool] {} (initState []) "adder" {} "id1" =
      ({ initState [] with
          steps := [.toolResult "adder" "id1" (some "3") none "runtime"]
          toolCalls := [(⟨"id1", "adder", {}⟩, some "3")]
          messages := [{ role := .tool, content := jsonOfResult "3", toolCallId := some "id1" }]
          events := ["tool:before", "tool:after"]
          mwRuns := ["tool:before", "tool:after"] }, .ok "3") ∧
    callTool [okTool, boomTool] {} (initState []) "boom" {} "id2" =
      ({ initState [] with
          steps := [.toolResult "boom" "id2" none (some "boom") "runtime"]
          toolCalls := [(⟨"id2", "boom", {}⟩, none)]
          messages := [{ role := .tool, content := jsonOfError "boom", toolCallId := some "id2" }]
          events := ["tool:before", "tool:after"]
          mwRuns := ["tool:before", "tool:after"] }, .error "boom") := by
  constructor
  · have h := (C2_callTool_bookkeeping [okTool, boomTool] {} (initState []) "adder" {} "id1"
      okTool (by rfl) (by rfl)).1 "3" (by rfl)
    simpa [initState] using h
  · have h := (C2_callTool_bookkeeping [okTool, boomTool] {} (initState []) "boom" {} "id2"
      boomTool (by rfl) (by rfl)).2 "boom" (by rfl)
    simpa [initState] using h

/-- C10: calling an unregistered tool, or a registered tool excluded by
`policy.allowedTools`, throws synchronously and leaves the execution state
completely unchanged — no message, step or toolCalls pair is appended and no
`tool:before` event or tool-scoped middleware fires (the state carries the
event/middleware instrumentation, so state equality covers those too). -/
theorem C10_policy_violation_atomic (tools : List ToolDef) (policy : AgentPolicy)
    (st : ExecState) (name : String) (args : ToolCallArgs) (callId : String)
    (h : registryGet tools name = none ∨
      ∃ tool, registryGet tools name = some tool ∧
        isAllowed name policy.allowedTools = false) :
    (callTool tools policy st name args callId).1 = st ∧
    ∃ e, (callTool tools policy st name args callId).2 = .error e := by
  rcases h with h | ⟨tool, hlook, hallow⟩
  · refine ⟨?_, "[Reasoning] Unknown tool: " ++ name, ?_⟩ <;> simp [callTool, h]
  · refine ⟨?_, "[Reasoning] Tool not allowed by policy: " ++ name, ?_⟩ <;>
      simp [callTool, hlook, hallow]

/-- C10 witness: both violation paths on a concrete registry leave the state
untouched and throw. -/
theorem C10_witness :
    ((callTool [okTool] {} (initState []) "nosuch" {} "id1").1 = initState [] ∧
      ∃ e, (callTool [okTool] {} (initState []) "nosuch" {} "id1").2 = .error e) ∧
    ((callTool [okTool] { allowedTools := some [] } (initState []) "adder" {} "id2").1 =
        initState [] ∧
      ∃ e, (callTool [okTool] { allowedTools := some [] } (initState [])
        "adder" {} "id2").2 = .error e) := by
  constructor
  · exact C10_policy_violation_atomic [okTool] {} (initState []) "nosuch" {} "id1"
      (Or.inl (by rfl))
  · exact C10_policy_violation_atomic [okTool] { allowedTools := some [] } (initState [])
      "adder" {} "id2" (Or.inr ⟨okTool, by rfl, by rfl⟩)

/-- C7: running the pipeline for a scope executes exactly the matching
middleware (unscoped middleware matches every scope) in registration order:
the trace is the longest prefix of matching middleware that all invoke their
continuation, followed by the first one that does not (after which nothing
else runs); when every matching middleware invokes its continuation, the
trace is exactly the matching middleware in registration order. -/
theorem C7_pipeline_scope_order (mws : List MwSpec) (scope : MwScope) :
    (pipelineRun mws scope =
      ((mws.filter (mwMatches scope)).takeWhile (fun m => m.callsNext)).map (fun m => m.id) ++
        (((mws.filter (mwMatches scope)).dropWhile (fun m => m.callsNext)).head?.elim []
          (fun m => [m.id]))) ∧
    ((∀ m ∈ mws.filter (mwMatches scope), m.callsNext = true) →
      pipelineRun mws scope = (mws.filter (mwMatches scope)).map (fun m => m.id)) := by
  constructor
  · exact mwDispatch_eq (mws.filter (mwMatches scope))
  · intro h
    exact mwDispatch_all (mws.filter (mwMatches scope)) h

/-- C7 witness: on a concrete registration list, a `tool:before` invocation
runs the unscoped middleware then the matching short-circuiting one and
stops, while a `run:after` invocation (where every matching middleware calls
`next`) runs exactly the matching middleware in order. -/
theorem C7_witness :
    pipelineRun mwListW .toolBefore = ["a", "b"] ∧
    pipelineRun mwListAllNext .runAfter = ["a", "c", "d"] := by
  constructor
  · have h := (C7_pipeline_scope_order mwListW .toolBefore).1
    simpa [mwListW, mwMatches] using h
  · have h := (C7_pipeline_scope_order mwListAllNext .runAfter).2 (by decide)
    simpa [mwListAllNext, mwMatches] using h

/-- C8: for every memory provider — Buffer, SlidingWindow, Summarizing and
Composite (under both read strategies) — clearing a session and then reading
it returns an empty message sequence. -/
theorem C8_clear_then_read_empty :
    (∀ (cfg : BufferConfig) (store : BufStore) (sid : String),
      bufRead cfg (bufClear store sid) (some sid) = []) ∧
    (∀ (cfg : SlidingWindowConfig) (store : SWStore) (sid : String),
      swRead cfg (swClear store sid) (some sid) = []) ∧
    (∀ (store : SumStore) (sid : String),
      sumRead (sumClear store sid) (some sid) = []) ∧
    (∀ (strategy : ReadStrategy) (providers : List ChildMemory) (sid : String),
      compRead strategy (compClear providers sid) (some sid) = []) := by
  refine ⟨bufRead_clear, swRead_clear, sumRead_clear, ?_⟩
  intro strategy providers sid
  cases strategy with
  | firstHit => exact firstHitGo_clear providers sid
  | merge =>
    show dedupGo [] _ = []
    rw [show compClear providers sid = providers.map (childClear sid) from rfl]
    rw [mergeFlatten_clear providers sid]
    rfl

/-- C3 counterexample: in a session holding two turns — an old turn whose
user message alone exceeds the remaining budget and a small recent turn —
`read` returns a non-empty result that is *not* a concatenation of whole
stored turns: the trim keeps the old turn's assistant message while dropping
its user message, splitting that turn across the trim boundary. -/
theorem C3_counterexample :
    ((alGet swCexStore "s").getD []).length = 2 ∧
    swRead swCfgW swCexStore (some "s") ≠ [] ∧
    turnAlignedSuffix (swRead swCfgW swCexStore (some "s"))
      ((alGet swCexStore "s").getD []) = false := by
  decide

/-- C3 amended: `SlidingWindowMemory.read` returns a suffix of the stored
session's flattened messages whose estimated token sum is at most
`maxTokens`; the trim is per *message* (dropping from the oldest message
forward), so turn boundaries are not necessarily preserved. -/
theorem C3_amended_read_suffix_budget (cfg : SlidingWindowConfig) (store : SWStore)
    (sid : Option String)
    (hns : ∀ m ∈ (((alGet store (sid.getD "default")).getD []) :
        List (List Message)).flatten, ¬ m.role = .system) :
    swRead cfg store sid <:+ ((alGet store (sid.getD "default")).getD []).flatten ∧
    estimateMessagesTokens (swRead cfg store sid) ≤ cfg.maxTokens := by
  have hread : swRead cfg store sid =
      trimToTokenBudget (((alGet store (sid.getD "default")).getD []) :
        List (List Message)).flatten cfg.maxTokens := rfl
  set msgs := (((alGet store (sid.getD "default")).getD []) : List (List Message)).flatten
    with hmsgs
  have hsys : msgs.filter (fun m => m.role == .system) = [] := by
    rw [List.filter_eq_nil_iff]
    intro m hm
    simpa using hns m hm
  have hrest : msgs.filter (fun m => !(m.role == .system)) = msgs := by
    rw [List.filter_eq_self]
    intro m hm
    simpa using hns m hm
  have htrim : trimToTokenBudget msgs cfg.maxTokens =
      takeNewest cfg.maxTokens msgs.reverse 0 := by
    unfold trimToTokenBudget
    dsimp only
    rw [hsys, hrest]
    simp [estimateMessagesTokens]
  rw [hread, htrim]
  constructor
  · obtain ⟨n, hn⟩ := takeNewest_take cfg.maxTokens msgs.reverse 0
    rw [hn]
    have h2 := (@List.reverse_suffix _ (msgs.reverse.take n)
      msgs.reverse).mpr (List.take_prefix n msgs.reverse)
    rwa [List.reverse_reverse] at h2
  · rcases takeNewest_budget cfg.maxTokens msgs.reverse 0 with h | h
    · simpa using h
    · rw [h]
      simp [estimateMessagesTokens]

/-- C3 amended witness: on the concrete two-turn store, the read result is a
suffix of the flattened messages and fits the budget. -/
theorem C3_witness :
    swRead swCfgW swCexStore (some "s") <:+
      ((alGet swCexStore "s").getD []).flatten ∧
    estimateMessagesTokens (swRead swCfgW swCexStore (some "s")) ≤ swCfgW.maxTokens := by
  exact C3_amended_read_suffix_budget swCfgW swCexStore (some "s") (by decide)

/-- C5 counterexample: when the summarizer model call produces an empty
summary, a compression-triggering write stores the empty string, and the
subsequent read — because `if (session.summary)` is falsy on the empty string
— returns no leading system message at all: its first element is the
retained user message, contradicting the claim for this in-scope input. -/
theorem C5_counterexample :
    sumCfgW.activeWindowTokens <
      estimateMessagesTokens (sumCexMsgs.filter (fun m => !(m.role == .system))) ∧
    (sumWrite sumCfgW (fun _ => "") [] sumCexMsgs (some "s")).2.length = 1 ∧
    ((sumRead (sumWrite sumCfgW (fun _ => "") [] sumCexMsgs (some "s")).1
      (some "s")).head?.map Message.role ≠ some Role.system) := by
  decide

/-- C5 amended: when a write pushes the active window's token estimate over
`activeWindowTokens`, the oldest `floor(n/2)` active messages are compressed
via exactly one model call whose prompt is `compressPrompt` applied to the
prior summary and those messages, the summary is clamped to
`summaryMaxTokens * 4` characters, the newer half becomes the active window,
and — *provided the clamped summary is non-empty* — a subsequent read
returns the synthetic system message carrying the stored summary followed by
exactly the retained window in original order. -/
theorem C5_amended_compression (cfg : SummarizingConfig)
    (complete : List Message → String) (store : SumStore) (messages : List Message)
    (sid : String) (nonSystem : List Message) (prompt : List Message) (clamped : String)
    (hns : nonSystem = messages.filter (fun m => !(m.role == .system)))
    (hprompt : prompt = compressPrompt cfg ((alGet store sid).getD {}).summary
      (nonSystem.take (nonSystem.length / 2)))
    (hclamp : clamped = (complete prompt).take (cfg.summaryMaxTokens * 4))
    (hex : cfg.activeWindowTokens < estimateMessagesTokens nonSystem)
    (hne : clamped ≠ "") :
    (sumWrite cfg complete store messages (some sid)).2 = [prompt] ∧
    alGet (sumWrite cfg complete store messages (some sid)).1 sid =
      some { summary := some clamped,
             activeMessages := nonSystem.drop (nonSystem.length / 2) } ∧
    sumRead (sumWrite cfg complete store messages (some sid)).1 (some sid) =
      { role := .system, content := "[Conversation summary so far]\n" ++ clamped } ::
        nonSystem.drop (nonSystem.length / 2) := by
  subst hns hprompt hclamp
  unfold sumWrite
  simp only [Option.getD_some]
  rw [if_pos hex]
  unfold compressSession
  dsimp only
  refine ⟨rfl, alGet_alSet _ _ _, ?_⟩
  unfold sumRead
  simp only [Option.getD_some]
  rw [alGet_alSet]
  dsimp only
  rw [if_neg (by simpa using hne)]

/-- C5 amended witness: a concrete compression-triggering write with a
non-empty summarizer output puts the clamped summary first on read,
followed by the retained newer half. -/
theorem C5_witness :
    sumRead (sumWrite sumCfgW (fun _ => "S") [] sumCexMsgs (some "s")).1 (some "s") =
      [{ role := .system, content := "[Conversation summary so far]\nS" },
       { role := .user, content := "bbbb" }] := by
  have h := (C5_amended_compression sumCfgW (fun _ => "S") [] sumCexMsgs "s"
    (sumCexMsgs.filter (fun m => !(m.role == .system))) _ _ rfl rfl rfl
    (by decide) (by decide)).2.2
  rw [h]
  rfl

/-- C1 counterexample: in a turn that calls the registered tool `other` and
the injected `finish` tool, the run resolves to the finish result — but the
`other` call is never executed: no `(call, result)` pair, no `tool_result`
step and no `tool:before` event is recorded, contradicting the claim that
the other tool calls of the turn are executed first. -/
theorem C1_counterexample :
    (autonomousRun {} plainParsers [otherToolW] {} c1Script (initState [])).2 = .ok "X" ∧
    (autonomousRun {} plainParsers [otherToolW] {} c1Script (initState [])).1.toolCalls
      = [] ∧
    (autonomousRun {} plainParsers [otherToolW] {} c1Script
      (initState [])).1.steps.countP Step.isToolResult = 0 ∧
    (autonomousRun {} plainParsers [otherToolW] {} c1Script
      (initState [])).1.events.count "tool:before" = 0 := by
  refine ⟨rfl, rfl, rfl, rfl⟩

/-- C1 amended: for every model turn whose tool calls include the injected
finish tool, the engine does *not* execute the other tool calls of that
turn; it appends the assistant message and the synthetic finish tool-result
message, and returns the finish call's `result` argument (falling back to
the message content when absent), leaving `toolCalls` and the `tool_result`
step count untouched. -/
theorem C1_amended_finish_skips_other_calls (P : Parsers) (tools : List ToolDef)
    (policy : AgentPolicy) (cfg : AutonomousConfig) (n : Nat) (resp : ModelResponse)
    (rest : List ModelResponse) (st st1 : ExecState) (fc : ToolCall)
    (hfind : resp.toolCalls.find? (fun tc => tc.name == cfg.finishToolName) = some fc)
    (husage : applyUsage policy st resp = (st1, .ok ())) :
    (autonomousLoop P tools policy cfg (n + 1) (resp :: rest) st).2 =
      .ok (fc.arguments.result.getD resp.message.content) ∧
    (autonomousLoop P tools policy cfg (n + 1) (resp :: rest) st).1.toolCalls =
      st.toolCalls ∧
    (autonomousLoop P tools policy cfg (n + 1) (resp :: rest) st).1.messages =
      st.messages ++ [resp.message, finishToolMessage fc.id] ∧
    (autonomousLoop P tools policy cfg (n + 1) (resp :: rest) st).1.steps.countP
      Step.isToolResult = st.steps.countP Step.isToolResult := by
  have hst1 : st1 = { st with usage := st1.usage } := by
    have h := applyUsage_fst policy st resp
    rw [husage] at h
    simpa using h
  have hb : resp.toolCalls.isEmpty = false := by
    cases htc : resp.toolCalls with
    | nil => rw [htc] at hfind; simp [List.find?] at hfind
    | cons a l => simp [List.isEmpty]
  have hmsg : st1.messages = st.messages := by rw [hst1]
  have htc1 : st1.toolCalls = st.toolCalls := by rw [hst1]
  have hstp : st1.steps = st.steps := by rw [hst1]
  simp only [autonomousLoop]
  rw [husage]
  simp only [hb, Bool.not_false, if_true, hfind]
  split <;>
    simp [pushStep, hmsg, htc1, hstp, List.countP_append, Step.isToolResult,
      List.append_assoc]

/-- C1 amended witness: at the concrete turn calling `other` and `finish`,
the loop returns `"X"`, appends exactly the assistant and synthetic finish
messages, and records no tool execution. -/
theorem C1_witness :
    (autonomousLoop plainParsers [otherToolW] {} {} 30 c1Script (initState [])).2 =
      .ok "X" ∧
    (autonomousLoop plainParsers [otherToolW] {} {} 30 c1Script
      (initState [])).1.toolCalls = [] ∧
    (autonomousLoop plainParsers [otherToolW] {} {} 30 c1Script
      (initState [])).1.messages =
      [] ++ [{ role := .assistant, content := "", toolCallId := none,
               toolCalls := [] }, finishToolMessage "c2"] ∧
    (autonomousLoop plainParsers [otherToolW] {} {} 30 c1Script
      (initState [])).1.steps.countP Step.isToolResult = 0 := by
  exact C1_amended_finish_skips_other_calls plainParsers [otherToolW] {} {} 29
    { message := { role := .assistant, content := "", toolCallId := none, toolCalls := [] },
      toolCalls := [otherCallW, finishCallW], usage := none }
    [] (initState []) (initState []) finishCallW (by rfl) (by rfl)

/-- C6 counterexample: with `maxReflections := 0` — an admissible
configuration value, kept by `config.maxReflections ?? 2` — a completed run
in which every critique call (vacuously) returns `needs_revision: false`
pushes *zero* reflection steps, not exactly one as claimed for every value
of `maxReflections`. -/
theorem C6_counterexample :
    (reflectRun { maxReflections := 0 } plainParsers [] {} [simpleResp]
      (initState [])).2 = .ok "hi" ∧
    (reflectRun { maxReflections := 0 } plainParsers [] {} [simpleResp]
      (initState [])).1.steps.countP Step.isReflection = 0 := by
  refine ⟨rfl, rfl⟩

/-- C4: for every run of every built-in engine (ReAct, CoT, Planner,
Reflect, Autonomous) that returns final text rather than throwing, exactly
one `response` step is pushed during the run, and it is the last step in the
run's step list. -/
theorem C4_single_final_response :
    (∀ (cfg : ReactConfig) (tools : List ToolDef) (policy : AgentPolicy)
      (script : List ModelResponse) (msgs : List Message) (st' : ExecState) (out : String),
      reactRun cfg tools policy script (initState msgs) = (st', .ok out) →
      st'.steps.countP Step.isResponse = 1 ∧
        ∃ pre, st'.steps = pre ++ [.response out "react"]) ∧
    (∀ (cfg : CotConfig) (P : Parsers) (tools : List ToolDef) (policy : AgentPolicy)
      (script : List ModelResponse) (msgs : List Message) (st' : ExecState) (out : String),
      cotRun cfg P tools policy script (initState msgs) = (st', .ok out) →
      st'.steps.countP Step.isResponse = 1 ∧
        ∃ pre, st'.steps = pre ++ [.response out "cot"]) ∧
    (∀ (cfg : PlannerConfig) (P : Parsers) (tools : List ToolDef) (policy : AgentPolicy)
      (input : String) (script : List ModelResponse) (msgs : List Message)
      (st' : ExecState) (out : String),
      plannerRun cfg P tools policy input script (initState msgs) = (st', .ok out) →
      st'.steps.countP Step.isResponse = 1 ∧
        ∃ pre, st'.steps = pre ++ [.response out "planner"]) ∧
    (∀ (cfg : ReflectConfig) (P : Parsers) (tools : List ToolDef) (policy : AgentPolicy)
      (script : List ModelResponse) (msgs : List Message) (st' : ExecState) (out : String),
      reflectRun cfg P tools policy script (initState msgs) = (st', .ok out) →
      st'.steps.countP Step.isResponse = 1 ∧
        ∃ pre, st'.steps = pre ++ [.response out "reflect"]) ∧
    (∀ (cfg : AutonomousConfig) (P : Parsers) (tools : List ToolDef) (policy : AgentPolicy)
      (script : List ModelResponse) (msgs : List Message) (st' : ExecState) (out : String),
      autonomousRun cfg P tools policy script (initState msgs) = (st', .ok out) →
      st'.steps.countP Step.isResponse = 1 ∧
        ∃ pre, st'.steps = pre ++ [.response out "autonomous"]) := by
  refine ⟨?_, ?_, ?_, ?_, ?_⟩
  · intro cfg tools policy script msgs st' out h
    obtain ⟨ds, hds, _, hok⟩ := reactRun_shape cfg tools policy script (initState msgs)
    obtain ⟨pre, hpre, hcnt⟩ := hok out (by rw [h])
    have h1 : st'.steps = ds := by
      rw [h] at hds
      simpa [initState] using hds
    exact ⟨by rw [h1, hpre]; simp [List.countP_append, hcnt, Step.isResponse],
      pre, by rw [h1, hpre]⟩
  · intro cfg P tools policy script msgs st' out h
    obtain ⟨ds, hds, _, hok⟩ := cotRun_shape cfg P tools policy script (initState msgs)
    obtain ⟨pre, hpre, hcnt⟩ := hok out (by rw [h])
    have h1 : st'.steps = ds := by
      rw [h] at hds
      simpa [initState] using hds
    exact ⟨by rw [h1, hpre]; simp [List.countP_append, hcnt, Step.isResponse],
      pre, by rw [h1, hpre]⟩
  · intro cfg P tools policy input script msgs st' out h
    obtain ⟨ds, hds, _, hok⟩ := plannerRun_shape cfg P tools policy input script
      (initState msgs)
    obtain ⟨pre, hpre, hcnt⟩ := hok out (by rw [h])
    have h1 : st'.steps = ds := by
      rw [h] at hds
      simpa [initState] using hds
    exact ⟨by rw [h1, hpre]; simp [List.countP_append, hcnt, Step.isResponse],
      pre, by rw [h1, hpre]⟩
  · intro cfg P tools policy script msgs st' out h
    obtain ⟨ds, hds, _, hok⟩ := reflectRun_shape cfg P tools policy script (initState msgs)
    obtain ⟨pre, hpre, hcnt⟩ := hok out (by rw [h])
    have h1 : st'.steps = ds := by
      rw [h] at hds
      simpa [initState] using hds
    exact ⟨by rw [h1, hpre]; simp [List.countP_append, hcnt, Step.isResponse],
      pre, by rw [h1, hpre]⟩
  · intro cfg P tools policy script msgs st' out h
    obtain ⟨ds, hds, _, hok⟩ := autonomousRun_shape cfg P tools policy script
      (initState msgs)
    obtain ⟨pre, hpre, hcnt⟩ := hok out (by rw [h])
    have h1 : st'.steps = ds := by
      rw [h] at hds
      simpa [initState] using hds
    exact ⟨by rw [h1, hpre]; simp [List.countP_append, hcnt, Step.isResponse],
      pre, by rw [h1, hpre]⟩

/-- C4 witness: concrete successful runs of all five engines each have
exactly one `response` step, and it is last. -/
theorem C4_witness :
    ((reactRun {} [] {} [simpleResp] (initState [])).1.steps.countP Step.isResponse = 1 ∧
      ∃ pre, (reactRun {} [] {} [simpleResp] (initState [])).1.steps =
        pre ++ [.response "hi" "react"]) ∧
    ((cotRun {} plainParsers [] {} [simpleResp] (initState [])).1.steps.countP
        Step.isResponse = 1 ∧
      ∃ pre, (cotRun {} plainParsers [] {} [simpleResp] (initState [])).1.steps =
        pre ++ [.response "hi" "cot"]) ∧
    ((plannerRun {} plainParsers [] {} "q" [simpleResp, simpleResp, simpleResp]
        (initState [])).1.steps.countP Step.isResponse = 1 ∧
      ∃ pre, (plannerRun {} plainParsers [] {} "q" [simpleResp, simpleResp, simpleResp]
        (initState [])).1.steps = pre ++ [.response "hi" "planner"]) ∧
    ((reflectRun {} plainParsers [] {} [simpleResp, simpleResp]
        (initState [])).1.steps.countP Step.isResponse = 1 ∧
      ∃ pre, (reflectRun {} plainParsers [] {} [simpleResp, simpleResp]
        (initState [])).1.steps = pre ++ [.response "hi" "reflect"]) ∧
    ((autonomousRun {} plainParsers [] {} [simpleResp] (initState [])).1.steps.countP
        Step.isResponse = 1 ∧
      ∃ pre, (autonomousRun {} plainParsers [] {} [simpleResp] (initState [])).1.steps =
        pre ++ [.response "hi" "autonomous"]) := by
  refine ⟨?_, ?_, ?_, ?_, ?_⟩
  · exact C4_single_final_response.1 {} [] {} [simpleResp] [] _ "hi" rfl
  · exact C4_single_final_response.2.1 {} plainParsers [] {} [simpleResp] [] _ "hi" rfl
  · exact C4_single_final_response.2.2.1 {} plainParsers [] {} "q"
      [simpleResp, simpleResp, simpleResp] [] _ "hi" rfl
  · exact C4_single_final_response.2.2.2.1 {} plainParsers [] {}
      [simpleResp, simpleResp] [] _ "hi" rfl
  · exact C4_single_final_response.2.2.2.2 {} plainParsers [] {} [simpleResp] [] _ "hi" rfl

/-- C9: the execution state's step list never contains a `tool_call` step:
`callTool` constructs a `ToolCallStep` value but never pushes it (the unused
`_callStep` binding), and no built-in engine pushes one — every run of every
engine, successful or not, ends with zero `tool_call` steps, so every
`tool_result` step appears without a matching `tool_call` step. -/
theorem C9_no_toolcall_step_ever :
    (∀ (tools : List ToolDef) (policy : AgentPolicy) (st : ExecState) (name : String)
      (args : ToolCallArgs) (callId : String),
      (callTool tools policy st name args callId).1.steps.countP Step.isToolCallStep =
        st.steps.countP Step.isToolCallStep) ∧
    (∀ (cfg : ReactConfig) (tools : List ToolDef) (policy : AgentPolicy)
      (script : List ModelResponse) (msgs : List Message),
      (reactRun cfg tools policy script (initState msgs)).1.steps.countP
        Step.isToolCallStep = 0) ∧
    (∀ (cfg : CotConfig) (P : Parsers) (tools : List ToolDef) (policy : AgentPolicy)
      (script : List ModelResponse) (msgs : List Message),
      (cotRun cfg P tools policy script (initState msgs)).1.steps.countP
        Step.isToolCallStep = 0) ∧
    (∀ (cfg : PlannerConfig) (P : Parsers) (tools : List ToolDef) (policy : AgentPolicy)
      (input : String) (script : List ModelResponse) (msgs : List Message),
      (plannerRun cfg P tools policy input script (initState msgs)).1.steps.countP
        Step.isToolCallStep = 0) ∧
    (∀ (cfg : ReflectConfig) (P : Parsers) (tools : List ToolDef) (policy : AgentPolicy)
      (script : List ModelResponse) (msgs : List Message),
      (reflectRun cfg P tools policy script (initState msgs)).1.steps.countP
        Step.isToolCallStep = 0) ∧
    (∀ (cfg : AutonomousConfig) (P : Parsers) (tools : List ToolDef)
      (policy : AgentPolicy) (script : List ModelResponse) (msgs : List Message),
      (autonomousRun cfg P tools policy script (initState msgs)).1.steps.countP
        Step.isToolCallStep = 0) := by
  refine ⟨?_, ?_, ?_, ?_, ?_, ?_⟩
  · intro tools policy st name args callId
    obtain ⟨ds, hds, hall⟩ := callTool_delta tools policy st name args callId
    have hz : ds.countP Step.isToolCallStep = 0 :=
      List.countP_eq_zero.mpr (fun s hs => by simp [(toolResult_benign s (hall s hs)).2])
    rw [hds, List.countP_append, hz]
    exact Nat.add_zero _
  · intro cfg tools policy script msgs
    obtain ⟨ds, hds, hfree, _⟩ := reactRun_shape cfg tools policy script (initState msgs)
    rw [hds]
    simp only [initState, List.nil_append]
    exact List.countP_eq_zero.mpr (fun s hs => by simp [hfree s hs])
  · intro cfg P tools policy script msgs
    obtain ⟨ds, hds, hfree, _⟩ := cotRun_shape cfg P tools policy script (initState msgs)
    rw [hds]
    simp only [initState, List.nil_append]
    exact List.countP_eq_zero.mpr (fun s hs => by simp [hfree s hs])
  · intro cfg P tools policy input script msgs
    obtain ⟨ds, hds, hfree, _⟩ := plannerRun_shape cfg P tools policy input script
      (initState msgs)
    rw [hds]
    simp only [initState, List.nil_append]
    exact List.countP_eq_zero.mpr (fun s hs => by simp [hfree s hs])
  · intro cfg P tools policy script msgs
    obtain ⟨ds, hds, hfree, _⟩ := reflectRun_shape cfg P tools policy script
      (initState msgs)
    rw [hds]
    simp only [initState, List.nil_append]
    exact List.countP_eq_zero.mpr (fun s hs => by simp [hfree s hs])
  · intro cfg P tools policy script msgs
    obtain ⟨ds, hds, hfree, _⟩ := autonomousRun_shape cfg P tools policy script
      (initState msgs)
    rw [hds]
    simp only [initState, List.nil_append]
    exact List.countP_eq_zero.mpr (fun s hs => by simp [hfree s hs])

/-- C6 amended: for every `maxReflections ≥ 1` (the loop must run at least
once), if every critique call evaluates to `needs_revision: false`, a
completed Reflect run pushes exactly one `reflection` step and the revision
phase never executes — witnessed by the thought count staying at one (only
the `Initial answer generated.` thought; a revision would push a second). -/
theorem C6_amended_single_reflection (cfg : ReflectConfig) (P : Parsers)
    (tools : List ToolDef) (policy : AgentPolicy) (script : List ModelResponse)
    (msgs : List Message) (st' : ExecState) (out : String)
    (hmax : 1 ≤ cfg.maxReflections)
    (hcrit : ∀ s, ((P.parseCritique s).getD fallbackCritique).needsRevision = false)
    (hok : reflectRun cfg P tools policy script (initState msgs) = (st', .ok out)) :
    st'.steps.countP Step.isReflection = 1 ∧ st'.steps.countP Step.isThought = 1 := by
  obtain ⟨k, hk⟩ : ∃ k, cfg.maxReflections = k + 1 := ⟨cfg.maxReflections - 1, by omega⟩
  unfold reflectRun at hok
  obtain ⟨ds1, hds1, hall1⟩ := generateAnswer_delta P tools policy cfg.maxAnswerSteps
    script (initState msgs)
  rcases hG : generateAnswer P tools policy cfg.maxAnswerSteps script (initState msgs)
    with ⟨st1, rest, exc⟩
  rw [hG] at hok hds1
  simp only at hds1
  cases exc with
  | error e => simp at hok
  | ok answer =>
    dsimp only at hok
    rw [hk] at hok
    unfold reflectLoop at hok
    unfold critique at hok
    rcases hCM : callModel policy
        (pushStep st1 (.thought "Initial answer generated." "reflect")) rest []
      with ⟨stc, restc, excc⟩
    have hstc := callModel_steps policy
      (pushStep st1 (.thought "Initial answer generated." "reflect")) rest []
    rw [hCM] at hok hstc
    simp only at hstc
    cases excc with
    | error e => simp at hok
    | ok resp2 =>
      dsimp only at hok
      rw [hcrit resp2.message.content] at hok
      simp only [Bool.not_false, Bool.true_or, if_true] at hok
      rw [Prod.mk.injEq] at hok
      obtain ⟨hst, _⟩ := hok
      have hz1 : ds1.countP Step.isReflection = 0 :=
        List.countP_eq_zero.mpr
          (fun s hs => by simp [(toolResult_not_reflective s (hall1 s hs)).1])
      have hz2 : ds1.countP Step.isThought = 0 :=
        List.countP_eq_zero.mpr
          (fun s hs => by simp [(toolResult_not_reflective s (hall1 s hs)).2])
      rw [← hst]
      constructor <;>
        simp [pushStep, hstc, hds1, initState, List.countP_append, hz1, hz2,
          Step.isReflection, Step.isThought]

/-- C6 amended witness: a concrete run with the default `maxReflections = 2`
and an always-accepting critique pushes exactly one reflection step and one
thought step. -/
theorem C6_witness :
    (reflectRun {} plainParsers [] {} [simpleResp, simpleResp]
      (initState [])).1.steps.countP Step.isReflection = 1 ∧
    (reflectRun {} plainParsers [] {} [simpleResp, simpleResp]
      (initState [])).1.steps.countP Step.isThought = 1 := by
  exact C6_amended_single_reflection {} plainParsers [] {} [simpleResp, simpleResp] []
    _ "hi" (by decide) (fun s => rfl) rfl

end AgentLib
